import Mathlib

/-!
# Verification of the `ena` graph module (`src/graph.rs`)

A shallow embedding of the directed-multigraph container: nodes and edges
live in two append-only arenas (modelled as Lean lists), and every edge is
threaded onto two intrusive singly-linked lists (one per direction) whose
heads live in the node records and whose links live in the edge records.

Rust `usize` indices are modelled as `Nat`; the sentinel
`INVALID_EDGE_INDEX = EdgeIndex(usize::MAX)` is the explicit numeral
`2 ^ 64 - 1`.  Operations that panic on an out-of-range index are modelled
as `Option`-returning functions (`none` = panic).  Iterators are modelled
as fuel-indexed trace functions; `none` also records fuel exhaustion,
so a `some` result simultaneously proves termination and absence of panics.
-/

set_option maxHeartbeats 1000000

namespace EnaGraph

/-- `NodeIndex(pub usize)`: position of a node in the node arena. -/
structure NodeIndex where
  val : Nat
deriving DecidableEq

/-- `EdgeIndex(pub usize)`: position of an edge in the edge arena. -/
structure EdgeIndex where
  val : Nat
deriving DecidableEq

/-- `usize::MAX`, the raw value of the sentinel edge index. -/
def USIZE_MAX : Nat := 2 ^ 64 - 1

/-- `INVALID_EDGE_INDEX`: the linked-list terminator `EdgeIndex(usize::MAX)`. -/
def INVALID_EDGE_INDEX : EdgeIndex := ⟨USIZE_MAX⟩

/-- `Direction { repr: usize }`: a closed two-valued selector.  The source
creates exactly the two constants `OUTGOING` (`repr = 0`) and `INCOMING`
(`repr = 1`) and keeps the field private, so the type is a two-element
enumeration. -/
inductive Direction where
  | OUTGOING
  | INCOMING
deriving DecidableEq

/-- The `repr` field of the two `Direction` constants. -/
def Direction.repr : Direction → Nat
  | .OUTGOING => 0
  | .INCOMING => 1

/-- Reading a two-element array `[x; 2]` at `d.repr` (`arr[d.repr]`). -/
def dirGet (p : α × α) (d : Direction) : α :=
  match d with
  | .OUTGOING => p.1
  | .INCOMING => p.2

/-- Writing a two-element array `[x; 2]` at `d.repr` (`arr[d.repr] = x`). -/
def dirSet (p : α × α) (d : Direction) (x : α) : α × α :=
  match d with
  | .OUTGOING => (x, p.2)
  | .INCOMING => (p.1, x)

/-- `Node<N>`: the two adjacency-list heads (`first_edge`, an array indexed
by `Direction.repr`, modelled as an ordered pair) plus the client payload. -/
structure Node (N : Type) where
  first_edge : EdgeIndex × EdgeIndex
  data : N
deriving DecidableEq

/-- `Edge<E>`: the two intrusive links (`next_edge`, indexed by
`Direction.repr`), the two endpoints, and the client payload. -/
structure Edge (E : Type) where
  next_edge : EdgeIndex × EdgeIndex
  source : NodeIndex
  target : NodeIndex
  data : E
deriving DecidableEq

/-- `Edge::source` accessor. -/
def Edge.sourceOf (e : Edge E) : NodeIndex := e.source

/-- `Edge::target` accessor. -/
def Edge.targetOf (e : Edge E) : NodeIndex := e.target

/-- `Graph<N, E>`: the two arenas.  The transactional `SnapshotVec` is an
external collaborator; the claims under verification exercise only its
plain-vector face (push, indexed read/write, length), so it is modelled as
a Lean list. -/
structure Graph (N E : Type) where
  nodes : List (Node N)
  edges : List (Edge E)
deriving DecidableEq

/-- `Graph::new()`: both arenas empty. -/
def Graph.new : Graph N E := ⟨[], []⟩

/-- List indexed by position starting at `k` (models `iter().enumerate()`
and the arena's index assignment). -/
def enumList : Nat → List α → List (Nat × α)
  | _, [] => []
  | k, x :: xs => (k, x) :: enumList (k + 1) xs

/-- In-place update of one arena slot (`vec[i] = f(vec[i])`); out of range
leaves the list unchanged (such an access never occurs in the verified
operations, which check the index first). -/
def modifyAt : List α → Nat → (α → α) → List α
  | [], _, _ => []
  | x :: xs, 0, f => f x :: xs
  | x :: xs, i + 1, f => x :: modifyAt xs i f

/-- `Graph::next_node_index`: the current node-arena length. -/
def next_node_index (g : Graph N E) : NodeIndex := ⟨g.nodes.length⟩

/-- `Graph::add_node`: push a node with both adjacency heads set to the
sentinel; return its freshly assigned index together with the new state. -/
def add_node (g : Graph N E) (data : N) : NodeIndex × Graph N E :=
  (next_node_index g,
    { g with nodes := g.nodes ++ [⟨(INVALID_EDGE_INDEX, INVALID_EDGE_INDEX), data⟩] })

/-- `Graph::node_data`: payload read; `none` models the out-of-range panic. -/
def node_data (g : Graph N E) (idx : NodeIndex) : Option N :=
  (g.nodes[idx.val]?).map Node.data

/-- `Graph::mut_node_data` followed by a store of `v` through the returned
exclusive reference (payload-only mutation). -/
def mut_node_data (g : Graph N E) (idx : NodeIndex) (v : N) : Graph N E :=
  { g with nodes := modifyAt g.nodes idx.val (fun nd => { nd with data := v }) }

/-- `Graph::next_edge_index`: the current edge-arena length. -/
def next_edge_index (g : Graph N E) : EdgeIndex := ⟨g.edges.length⟩

/-- `Graph::edge_data`: payload read; `none` models the out-of-range panic. -/
def edge_data (g : Graph N E) (idx : EdgeIndex) : Option E :=
  (g.edges[idx.val]?).map Edge.data

/-- `Graph::mut_edge_data` followed by a store of `v` through the returned
exclusive reference (payload-only mutation). -/
def mut_edge_data (g : Graph N E) (idx : EdgeIndex) (v : E) : Graph N E :=
  { g with edges := modifyAt g.edges idx.val (fun ed => { ed with data := v }) }

/-- `Graph::add_edge`: read the current outgoing head of `source` and the
current incoming head of `target`, push the new edge carrying those two
heads as its `next_edge` links, then redirect both heads to the new index.
`none` models the panic raised by `self.nodes[source.0]` /
`self.nodes[target.0]` when an endpoint is out of range. -/
def add_edge (g : Graph N E) (source target : NodeIndex) (data : E) :
    Option (EdgeIndex × Graph N E) :=
  match g.nodes[source.val]?, g.nodes[target.val]? with
  | some sn, some tn =>
    let idx := next_edge_index g
    let source_first := dirGet sn.first_edge .OUTGOING
    let target_first := dirGet tn.first_edge .INCOMING
    let edges' := g.edges ++ [⟨(source_first, target_first), source, target, data⟩]
    let nodes' :=
      modifyAt
        (modifyAt g.nodes source.val
          (fun nd => { nd with first_edge := dirSet nd.first_edge .OUTGOING idx }))
        target.val
        (fun nd => { nd with first_edge := dirSet nd.first_edge .INCOMING idx })
    some (idx, ⟨nodes', edges'⟩)
  | _, _ => none

/-- `Graph::first_adjacent`: the adjacency-list head of a node in one
direction (`none` = out-of-range panic). -/
def first_adjacent (g : Graph N E) (n : NodeIndex) (d : Direction) : Option EdgeIndex :=
  (g.nodes[n.val]?).map (fun nd => dirGet nd.first_edge d)

/-- `Graph::next_adjacent`: the next intrusive link of an edge in one
direction (`none` = out-of-range panic). -/
def next_adjacent (g : Graph N E) (e : EdgeIndex) (d : Direction) : Option EdgeIndex :=
  (g.edges[e.val]?).map (fun ed => dirGet ed.next_edge d)

/-- Exhausting `AdjacentEdges::next`: walk the intrusive list from `e`,
yielding `(index, edge)` pairs until the sentinel.  `none` records either
an out-of-range link (panic in the source) or fuel exhaustion (the source
iterator would not terminate); a `some` result is a complete terminating
traversal. -/
def walkPairs (edges : List (Edge E)) (d : Direction) : Nat → EdgeIndex →
    Option (List (EdgeIndex × Edge E))
  | 0, e => if e = INVALID_EDGE_INDEX then some [] else none
  | fuel + 1, e =>
    if e = INVALID_EDGE_INDEX then some []
    else
      match edges[e.val]? with
      | none => none
      | some ed =>
        (walkPairs edges d fuel (dirGet ed.next_edge d)).map (fun l => (e, ed) :: l)

/-- `Graph::adjacent_edges` exhausted into a list: start from the node's
head for `direction` and walk to the sentinel.  The fuel `edges.length`
suffices for every graph built through the public API because intrusive
links always point to strictly smaller edge indices. -/
def adjacent_edges (g : Graph N E) (n : NodeIndex) (d : Direction) :
    Option (List (EdgeIndex × Edge E)) :=
  match g.nodes[n.val]? with
  | none => none
  | some nd => walkPairs g.edges d g.edges.length (dirGet nd.first_edge d)

/-- `Graph::outgoing_edges`. -/
def outgoing_edges (g : Graph N E) (n : NodeIndex) : Option (List (EdgeIndex × Edge E)) :=
  adjacent_edges g n .OUTGOING

/-- `Graph::incoming_edges`. -/
def incoming_edges (g : Graph N E) (n : NodeIndex) : Option (List (EdgeIndex × Edge E)) :=
  adjacent_edges g n .INCOMING

/-- The `d`-side endpoint of an edge: the endpoint whose adjacency list in
direction `d` the edge belongs to (source for OUTGOING, target for
INCOMING). -/
def endpoint (e : Edge E) (d : Direction) : NodeIndex :=
  match d with
  | .OUTGOING => e.source
  | .INCOMING => e.target

/-- Specification-side description of adjacency (from the spec: the
traversal yields "exactly the edges whose matching endpoint equals that
node, in reverse-insertion order"): enumerate the edge arena in insertion
order, keep the edges whose `d`-side endpoint is `n`, and reverse. -/
def adjacencySpec (g : Graph N E) (n : NodeIndex) (d : Direction) :
    List (EdgeIndex × Edge E) :=
  (((enumList 0 g.edges).filter (fun p => decide (endpoint p.2 d = n))).reverse).map
    (fun p => (⟨p.1⟩, p.2))

/-! ## Callback iteration (`each_node`, `each_edge`)

The Rust callbacks are `FnMut` closures; their mutable captures are
modelled by threading an explicit state `σ` through every invocation. -/

/-- `Iterator::all` over an enumerated list with a state-threading
callback: invoke in order, stop at the first `false`. -/
def eachAux (f : σ → Nat × α → Bool × σ) : List (Nat × α) → σ → Bool × σ
  | [], s => (true, s)
  | x :: xs, s =>
    match f s x with
    | (true, s') => eachAux f xs s'
    | (false, s') => (false, s')

/-- Wraps a node callback as a callback on enumerated pairs
(`|(i, node)| f(NodeIndex(i), node)`). -/
def nodeAdapter (f : σ → NodeIndex → Node N → Bool × σ) : σ → Nat × Node N → Bool × σ :=
  fun s p => f s ⟨p.1⟩ p.2

/-- Wraps an edge callback as a callback on enumerated pairs
(`|(i, edge)| f(EdgeIndex(i), edge)`). -/
def edgeAdapter (f : σ → EdgeIndex → Edge E → Bool × σ) : σ → Nat × Edge E → Bool × σ :=
  fun s p => f s ⟨p.1⟩ p.2

/-- `Graph::each_node`:
`self.nodes.iter().enumerate().all(|(i, node)| f(NodeIndex(i), node))`. -/
def each_node (g : Graph N E) (f : σ → NodeIndex → Node N → Bool × σ) (s : σ) : Bool × σ :=
  eachAux (nodeAdapter f) (enumList 0 g.nodes) s

/-- `Graph::each_edge`:
`self.edges.iter().enumerate().all(|(i, edge)| f(EdgeIndex(i), edge))`. -/
def each_edge (g : Graph N E) (f : σ → EdgeIndex → Edge E → Bool × σ) (s : σ) : Bool × σ :=
  eachAux (edgeAdapter f) (enumList 0 g.edges) s

/-- Reference run with no early exit: the state after invoking `f` on every
element in order. -/
def runStates (f : σ → Nat × α → Bool × σ) : List (Nat × α) → σ → σ
  | [], s => s
  | x :: xs, s => runStates f xs (f s x).2

/-- Reference run with no early exit: whether every invocation of `f`, with
the state threaded in order, returns `true`. -/
def allMark (f : σ → Nat × α → Bool × σ) : List (Nat × α) → σ → Bool
  | [], _ => true
  | x :: xs, s => (f s x).1 && allMark f xs (f s x).2

/-! ## Fixed-point iteration driver -/

/-- One inner pass of `iterate_until_fixed_point`: for every `(i, edge)` of
the enumerated arena, `changed |= op(iteration, EdgeIndex(i), edge)`. -/
def fpPass (op : σ → Nat → EdgeIndex → Edge E → Bool × σ) (iteration : Nat) :
    List (Nat × Edge E) → σ → Bool → Bool × σ
  | [], s, changed => (changed, s)
  | (i, e) :: rest, s, changed =>
    match op s iteration ⟨i⟩ e with
    | (b, s') => fpPass op iteration rest s' (changed || b)

/-- The `while changed` loop of `iterate_until_fixed_point`, with fuel: a
non-monotone `op` loops forever in the source, which the model records as
`none`.  On termination it returns the final iteration-counter value and
the final callback state. -/
def fpLoop (g : Graph N E) (op : σ → Nat → EdgeIndex → Edge E → Bool × σ) :
    Nat → Nat → σ → Option (Nat × σ)
  | 0, _, _ => none
  | fuel + 1, iteration, s =>
    match fpPass op (iteration + 1) (enumList 0 g.edges) s false with
    | (changed, s') =>
      if changed then fpLoop g op fuel (iteration + 1) s' else some (iteration + 1, s')

/-- `Graph::iterate_until_fixed_point`: counter starts at 0, `changed`
starts `true` (so the body always runs at least once, modelled by entering
`fpLoop` directly). -/
def iterate_until_fixed_point (g : Graph N E)
    (op : σ → Nat → EdgeIndex → Edge E → Bool × σ) (s : σ) (fuel : Nat) :
    Option (Nat × σ) :=
  fpLoop g op fuel 0 s

/-- State of the pass recurrence: `passState j` is the callback state after
the first `j` full passes (pass `j` runs with iteration number `j`). -/
def passState (g : Graph N E) (op : σ → Nat → EdgeIndex → Edge E → Bool × σ) (s : σ) :
    Nat → σ
  | 0 => s
  | j + 1 => (fpPass op (j + 1) (enumList 0 g.edges) (passState g op s j) false).2

/-- Whether pass number `j + 1` (run on the state after `j` passes) reports
a change. -/
def passChanged (g : Graph N E) (op : σ → Nat → EdgeIndex → Edge E → Bool × σ) (s : σ)
    (j : Nat) : Bool :=
  (fpPass op (j + 1) (enumList 0 g.edges) (passState g op s j) false).1

/-- Instrumented callback: additionally log every invocation as
`(iteration, raw edge index)`. -/
def logOp (op : σ → Nat → EdgeIndex → Edge E → Bool × σ) :
    σ × List (Nat × Nat) → Nat → EdgeIndex → Edge E → Bool × (σ × List (Nat × Nat)) :=
  fun p iteration i e =>
    match op p.1 iteration i e with
    | (b, s') => (b, (s', p.2 ++ [(iteration, i.val)]))

/-- The invocation log of one full pass with iteration number `c` over an
`m`-edge arena: edge indices `0..m-1` in order. -/
def passLog (m c : Nat) : List (Nat × Nat) :=
  (List.range m).map (fun i => (c, i))

/-- The invocation log the spec prescribes for `k` full passes over an
`m`-edge arena: passes numbered `1..k`, each visiting edge indices
`0..m-1` in order. -/
def expectedLog : Nat → Nat → List (Nat × Nat)
  | 0, _ => []
  | k + 1, m => expectedLog k m ++ passLog m (k + 1)

/-- The invocation log of passes `j+1 .. k` over an `m`-edge arena. -/
def logSpan (m j k : Nat) : List (Nat × Nat) :=
  ((List.range' (j + 1) (k - j)).map (passLog m)).flatten

/-! ## Depth-first traversal -/

/-- Result of one `DepthFirstTraversal::next` call.  `stuck` models a
panic (out-of-range node reached), `done` the exhausted iterator. -/
inductive DfStep (N : Type) where
  | stuck
  | done
  | yield (idx : NodeIndex) (data : N) (stack : List NodeIndex) (visited : Finset Nat)
deriving DecidableEq

/-- `DepthFirstTraversal::next`: pop until an unvisited node appears; mark
it visited, push every not-yet-visited target of its outgoing edges (in
adjacency order, so the last-listed target ends deepest... the fold keeps
Vec semantics: later pushes are popped earlier), and yield the node.  The
stack is a Lean list with its head as the Vec's top.  The visited bit-set
is an external collaborator, modelled as a `Finset Nat`. -/
def dftNext (g : Graph N E) : List NodeIndex → Finset Nat → DfStep N
  | [], _ => .done
  | idx :: rest, visited =>
    if idx.val ∈ visited then dftNext g rest visited
    else
      match adjacent_edges g idx .OUTGOING with
      | none => .stuck
      | some adj =>
        let visited' := insert idx.val visited
        let stack' := adj.foldl
          (fun st p => if p.2.target.val ∈ visited' then st else p.2.target :: st) rest
        match node_data g idx with
        | none => .stuck
        | some v => .yield idx v stack' visited'

/-- Exhausting the traversal with fuel: `none` records a panic or fuel
exhaustion; `some` is the complete yielded sequence, each payload paired
with the node index it was read from. -/
def dftRun (g : Graph N E) : Nat → List NodeIndex → Finset Nat →
    Option (List (NodeIndex × N))
  | 0, stack, visited =>
    match dftNext g stack visited with
    | .done => some []
    | _ => none
  | fuel + 1, stack, visited =>
    match dftNext g stack visited with
    | .done => some []
    | .stuck => none
    | .yield idx v stack' visited' =>
      (dftRun g fuel stack' visited').map (fun l => (idx, v) :: l)

/-- `Graph::depth_traverse` exhausted: stack seeded with `start`, fresh
visited set.  One unit of fuel per yield; `nodes.length + 1` units suffice
for every graph built through the public API. -/
def depth_traverse (g : Graph N E) (start : NodeIndex) : Option (List (NodeIndex × N)) :=
  dftRun g (g.nodes.length + 1) [start] ∅

/-- The payload view of `depth_traverse` (what the Rust iterator yields). -/
def depthTraverseData (g : Graph N E) (start : NodeIndex) : Option (List N) :=
  (depth_traverse g start).map (fun l => l.map Prod.snd)

/-- One edge leads from `i` to `j`. -/
def Succ (g : Graph N E) (i j : NodeIndex) : Prop :=
  ∃ e ∈ g.edges, e.source = i ∧ e.target = j

/-- `j` is reachable from `i` along outgoing edges. -/
def Reach (g : Graph N E) (i j : NodeIndex) : Prop :=
  Relation.ReflTransGen (Succ g) i j

/-! ## Construction traces -/

/-- One public construction call. -/
inductive GraphOp (N E : Type) where
  | addNode (v : N)
  | addEdge (s t : NodeIndex) (v : E)

/-- Run a sequence of construction calls, collecting the returned node and
edge indices in call order; `none` if some `add_edge` panics. -/
def runOps (g : Graph N E) : List (GraphOp N E) →
    Option (Graph N E × List NodeIndex × List EdgeIndex)
  | [] => some (g, [], [])
  | .addNode v :: ops =>
    (runOps (add_node g v).2 ops).map (fun r => (r.1, (add_node g v).1 :: r.2.1, r.2.2))
  | .addEdge s t v :: ops =>
    match add_edge g s t v with
    | none => none
    | some (i, g') => (runOps g' ops).map (fun r => (r.1, r.2.1, i :: r.2.2))

/-- The graph states reachable from `Graph::new()` through the public
mutating API: `add_node`, successful `add_edge` (the edge arena staying
below the sentinel index, which a real `Vec` cannot reach), and payload
mutation through `mut_node_data` / `mut_edge_data`. -/
inductive Built : Graph N E → Prop where
  | new : Built Graph.new
  | addNode (g : Graph N E) (v : N) : Built g → Built (add_node g v).2
  | addEdge (g : Graph N E) (s t : NodeIndex) (v : E) (i : EdgeIndex) (g' : Graph N E) :
      Built g → g.edges.length < INVALID_EDGE_INDEX.val →
      add_edge g s t v = some (i, g') → Built g'
  | mutNode (g : Graph N E) (i : NodeIndex) (v : N) : Built g → Built (mut_node_data g i v)
  | mutEdge (g : Graph N E) (i : EdgeIndex) (v : E) : Built g → Built (mut_edge_data g i v)

/-! ## The reference graph of the test suite / spec scenario -/

/-- Helper for building concrete graphs: `add_edge` projected to the new
state (the discarded-`none` branch is never taken on the reference data,
as the `Built refGraph` proof below certifies). -/
def addEdgeD (g : Graph N E) (s t : NodeIndex) (v : E) : Graph N E :=
  match add_edge g s t v with
  | some (_, g') => g'
  | none => g

/-- The six nodes A..F of the reference graph, in insertion order. -/
def refNodes : Graph String String :=
  (add_node (add_node (add_node (add_node (add_node (add_node
    Graph.new "A").2 "B").2 "C").2 "D").2 "E").2 "F").2

/-- The 6-node, 6-edge reference graph: nodes A..F, edges AB, BC, BD, DE,
EC, FB in that order. -/
def refGraph : Graph String String :=
  addEdgeD (addEdgeD (addEdgeD (addEdgeD (addEdgeD (addEdgeD
    refNodes ⟨0⟩ ⟨1⟩ "AB") ⟨1⟩ ⟨2⟩ "BC") ⟨1⟩ ⟨3⟩ "BD")
    ⟨3⟩ ⟨4⟩ "DE") ⟨4⟩ ⟨2⟩ "EC") ⟨5⟩ ⟨1⟩ "FB"

/-! ## Basic lemmas about the arena model -/

theorem length_modifyAt (l : List α) (i : Nat) (f : α → α) :
    (modifyAt l i f).length = l.length := by
  induction l generalizing i with
  | nil => rfl
  | cons x xs ih =>
    cases i with
    | zero => rfl
    | succ i => simp [modifyAt, ih]

theorem getElem?_modifyAt (l : List α) (i : Nat) (f : α → α) (j : Nat) :
    (modifyAt l i f)[j]? = if i = j then (l[j]?).map f else l[j]? := by
  induction l generalizing i j with
  | nil => simp [modifyAt]
  | cons x xs ih =>
    cases i with
    | zero =>
      cases j with
      | zero => simp [modifyAt]
      | succ j => simp [modifyAt]
    | succ i =>
      cases j with
      | zero => simp [modifyAt]
      | succ j =>
        simp only [modifyAt, List.getElem?_cons_succ]
        rw [ih]
        by_cases h : i = j <;> simp [h]

theorem length_enumList (k : Nat) (l : List α) : (enumList k l).length = l.length := by
  induction l generalizing k with
  | nil => rfl
  | cons x xs ih => simp [enumList, ih]

theorem enumList_append (k : Nat) (l l' : List α) :
    enumList k (l ++ l') = enumList k l ++ enumList (k + l.length) l' := by
  induction l generalizing k with
  | nil => simp [enumList]
  | cons x xs ih =>
    simp only [List.cons_append, enumList, List.length_cons, List.append_eq]
    rw [ih, show k + 1 + xs.length = k + (xs.length + 1) from by omega]

theorem mem_enumList (k : Nat) (l : List α) (i : Nat) (a : α) :
    (i, a) ∈ enumList k l ↔ k ≤ i ∧ l[i - k]? = some a := by
  induction l generalizing k with
  | nil => simp [enumList]
  | cons x xs ih =>
    simp only [enumList, List.mem_cons, ih]
    constructor
    · rintro (h | ⟨hk, hg⟩)
      · obtain ⟨h1, h2⟩ := Prod.mk.injEq .. ▸ h
        refine ⟨le_of_eq h1.symm, ?_⟩
        simp [h1.symm, h2.symm]
      · refine ⟨by omega, ?_⟩
        rw [show i - k = (i - (k + 1)) + 1 from by omega]
        simpa using hg
    · rintro ⟨hk, hg⟩
      rcases Nat.eq_or_lt_of_le hk with h | h
      · left
        simp [← h] at hg
        simp [← h, hg.symm]
      · right
        refine ⟨by omega, ?_⟩
        rw [show i - k = (i - (k + 1)) + 1 from by omega] at hg
        simpa using hg

theorem enumList_modifyAt (k : Nat) (l : List α) (i : Nat) (f : α → α) :
    enumList k (modifyAt l i f) =
      (enumList k l).map (fun p => if p.1 = k + i then (p.1, f p.2) else p) := by
  induction l generalizing k i with
  | nil => simp [modifyAt, enumList]
  | cons x xs ih =>
    cases i with
    | zero =>
      simp only [modifyAt, enumList, List.map_cons, Nat.add_zero, if_pos rfl]
      congr 1
      have h : ∀ p ∈ enumList (k + 1) xs,
          (if p.1 = k then ((p.1 : Nat), f p.2) else p) = p := by
        intro p hp
        have hk : k + 1 ≤ p.1 := ((mem_enumList (k + 1) xs p.1 p.2).1 (by simpa using hp)).1
        simp [show ¬ p.1 = k from by omega]
      exact ((List.map_congr_left h).trans (List.map_id _)).symm
    | succ i =>
      simp only [modifyAt, enumList, List.map_cons, ih]
      rw [if_neg (by omega)]
      rw [show k + 1 + i = k + (i + 1) from by omega]

/-! ## Lemmas about the adjacency walk -/

theorem walkPairs_mono (edges : List (Edge E)) (d : Direction) (fuel : Nat) :
    ∀ e l, walkPairs edges d fuel e = some l → walkPairs edges d (fuel + 1) e = some l := by
  induction fuel with
  | zero =>
    intro e l h
    simp only [walkPairs] at h ⊢
    by_cases hs : e = INVALID_EDGE_INDEX
    · simpa [hs] using h
    · simp [hs] at h
  | succ fuel ih =>
    intro e l h
    simp only [walkPairs] at h ⊢
    by_cases hs : e = INVALID_EDGE_INDEX
    · simpa [hs] using h
    · simp only [if_neg hs] at h ⊢
      cases hg : edges[e.val]? with
      | none => simp [hg] at h
      | some ed =>
        simp only [hg, Option.map_eq_some'] at h ⊢
        obtain ⟨l', hl', rfl⟩ := h
        exact ⟨l', ih _ _ hl', rfl⟩

theorem walkPairs_le (edges : List (Edge E)) (d : Direction) (fuel fuel' : Nat)
    (hf : fuel ≤ fuel') :
    ∀ e l, walkPairs edges d fuel e = some l → walkPairs edges d fuel' e = some l := by
  induction fuel' with
  | zero =>
    intro e l h
    have h0 : fuel = 0 := by omega
    simpa [h0] using h
  | succ fuel' ih =>
    intro e l h
    rcases Nat.eq_or_lt_of_le hf with rfl | hlt
    · exact h
    · exact walkPairs_mono edges d fuel' e l (ih (by omega) e l h)

theorem walkPairs_append (edges ys : List (Edge E)) (d : Direction) (fuel : Nat) :
    ∀ e l, walkPairs edges d fuel e = some l → walkPairs (edges ++ ys) d fuel e = some l := by
  induction fuel with
  | zero =>
    intro e l h
    simp only [walkPairs] at h ⊢
    by_cases hs : e = INVALID_EDGE_INDEX
    · simpa [hs] using h
    · simp [hs] at h
  | succ fuel ih =>
    intro e l h
    simp only [walkPairs] at h ⊢
    by_cases hs : e = INVALID_EDGE_INDEX
    · simpa [hs] using h
    · simp only [if_neg hs] at h ⊢
      cases hg : edges[e.val]? with
      | none => simp [hg] at h
      | some ed =>
        have hlt : e.val < edges.length := by
          rcases List.getElem?_eq_some_iff.1 hg with ⟨h', _⟩
          exact h'
        rw [List.getElem?_append_left hlt, hg]
        simp only [hg, Option.map_eq_some'] at h
        obtain ⟨l', hl', rfl⟩ := h
        simp only [Option.map_eq_some']
        exact ⟨l', ih _ _ hl', rfl⟩

theorem dirGet_dirSet (p : α × α) (d d' : Direction) (x : α) :
    dirGet (dirSet p d' x) d = if d = d' then x else dirGet p d := by
  cases d <;> cases d' <;> simp [dirGet, dirSet]

theorem mem_modifyAt (l : List α) (i : Nat) (f : α → α) (a : α) (h : a ∈ modifyAt l i f) :
    a ∈ l ∨ ∃ b ∈ l, a = f b := by
  induction l generalizing i with
  | nil => simp [modifyAt] at h
  | cons x xs ih =>
    cases i with
    | zero =>
      rcases List.mem_cons.1 h with h | h
      · exact Or.inr ⟨x, by simp, h⟩
      · exact Or.inl (by simp [h])
    | succ i =>
      rcases List.mem_cons.1 h with h | h
      · exact Or.inl (by simp [h])
      · rcases ih i h with h' | ⟨b, hb, rfl⟩
        · exact Or.inl (by simp [h'])
        · exact Or.inr ⟨b, by simp [hb], rfl⟩

theorem walkPairs_modifyAt (edges : List (Edge E)) (d : Direction) (i : Nat)
    (f : Edge E → Edge E) (hf : ∀ ed, (f ed).next_edge = ed.next_edge) (fuel : Nat) :
    ∀ e l, walkPairs edges d fuel e = some l →
      walkPairs (modifyAt edges i f) d fuel e =
        some (l.map (fun q => if q.1.val = i then (q.1, f q.2) else q)) := by
  induction fuel with
  | zero =>
    intro e l h
    simp only [walkPairs] at h ⊢
    by_cases hs : e = INVALID_EDGE_INDEX
    · simp [hs] at h ⊢
      simp [← h]
    · simp [hs] at h
  | succ fuel ih =>
    intro e l h
    simp only [walkPairs] at h ⊢
    by_cases hs : e = INVALID_EDGE_INDEX
    · simp [hs] at h ⊢
      simp [← h]
    · simp only [if_neg hs] at h ⊢
      cases hg : edges[e.val]? with
      | none => simp [hg] at h
      | some ed =>
        simp only [hg, Option.map_eq_some'] at h
        obtain ⟨l', hl', rfl⟩ := h
        rw [getElem?_modifyAt]
        by_cases hie : i = e.val
        · have hnext : dirGet (f ed).next_edge d = dirGet ed.next_edge d := by rw [hf]
          rw [if_pos hie, hg]
          simp only [Option.map_some', hnext]
          rw [ih _ _ hl']
          simp only [Option.map_some', List.map_cons]
          rw [if_pos hie.symm]
        · rw [if_neg hie, hg]
          dsimp only
          rw [ih _ _ hl']
          simp only [Option.map_some', List.map_cons]
          rw [if_neg (by omega)]

/-! ## Lemmas about the adjacency specification -/

theorem adjacencySpec_edges (nds nds' : List (Node N)) (eds : List (Edge E))
    (n : NodeIndex) (d : Direction) :
    adjacencySpec (⟨nds, eds⟩ : Graph N E) n d = adjacencySpec ⟨nds', eds⟩ n d := rfl

theorem adjacencySpec_append (g : Graph N E) (nds : List (Node N)) (x : Edge E)
    (n : NodeIndex) (d : Direction) :
    adjacencySpec (⟨nds, g.edges ++ [x]⟩ : Graph N E) n d =
      (if endpoint x d = n then [((⟨g.edges.length⟩ : EdgeIndex), x)] else []) ++
        adjacencySpec g n d := by
  show ((enumList 0 (g.edges ++ [x])).filter _).reverse.map _ = _
  rw [enumList_append]
  simp only [Nat.zero_add, enumList, List.filter_append, List.reverse_append, List.map_append]
  by_cases hx : endpoint x d = n
  · simp [hx, adjacencySpec]
  · simp [hx, adjacencySpec]

theorem map_ite_id (l : List (Nat × β)) (m : Nat) (ψ : Nat × β → Nat × β)
    (h : ∀ p ∈ l, ¬ p.1 = m) :
    l.map (fun p => if p.1 = m then ψ p else p) = l := by
  have h' : ∀ p ∈ l, (if p.1 = m then ψ p else p) = p := by
    intro p hp
    rw [if_neg (h p hp)]
  exact (List.map_congr_left h').trans (List.map_id _)

theorem filter_enumList_modifyAt (f : Edge E → Edge E)
    (hf : ∀ ed d', endpoint (f ed) d' = endpoint ed d') (n : NodeIndex) (d : Direction)
    (eds : List (Edge E)) :
    ∀ k i, (enumList k (modifyAt eds i f)).filter (fun p => decide (endpoint p.2 d = n)) =
      ((enumList k eds).filter (fun p => decide (endpoint p.2 d = n))).map
        (fun p => if p.1 = k + i then (p.1, f p.2) else p) := by
  induction eds with
  | nil => intro k i; simp [modifyAt, enumList]
  | cons x xs ih =>
    intro k i
    have htail_ge : ∀ p ∈ (enumList (k + 1) xs).filter
        (fun p : Nat × Edge E => decide (endpoint p.2 d = n)), k + 1 ≤ p.1 := by
      intro p hp
      exact ((mem_enumList (k + 1) xs p.1 p.2).1
        (by simpa using (List.mem_filter.1 hp).1)).1
    cases i with
    | zero =>
      simp only [modifyAt, enumList, List.filter_cons]
      by_cases hx : endpoint x d = n
      · rw [if_pos (by simpa [hf] using hx), if_pos (by simpa using hx)]
        simp only [List.map_cons, Nat.add_zero, if_pos rfl]
        congr 1
        exact (map_ite_id _ k _ (fun p hp => by have := htail_ge p hp; omega)).symm
      · rw [if_neg (by simpa [hf] using hx), if_neg (by simpa using hx)]
        simp only [Nat.add_zero]
        exact (map_ite_id _ k _ (fun p hp => by have := htail_ge p hp; omega)).symm
    | succ i =>
      simp only [modifyAt, enumList, List.filter_cons]
      by_cases hx : endpoint x d = n
      · rw [if_pos (by simpa using hx), if_pos (by simpa using hx)]
        simp only [List.map_cons]
        rw [if_neg (by omega)]
        congr 1
        rw [ih (k + 1) i, show k + 1 + i = k + (i + 1) from by omega]
      · rw [if_neg (by simpa using hx), if_neg (by simpa using hx)]
        rw [ih (k + 1) i, show k + 1 + i = k + (i + 1) from by omega]

theorem adjacencySpec_modifyAt (g : Graph N E) (nds : List (Node N)) (i : Nat)
    (f : Edge E → Edge E) (hf : ∀ ed d', endpoint (f ed) d' = endpoint ed d')
    (n : NodeIndex) (d : Direction) :
    adjacencySpec (⟨nds, modifyAt g.edges i f⟩ : Graph N E) n d =
      (adjacencySpec g n d).map (fun q => if q.1.val = i then (q.1, f q.2) else q) := by
  show ((enumList 0 (modifyAt g.edges i f)).filter _).reverse.map _ = _
  rw [filter_enumList_modifyAt f hf n d g.edges 0 i]
  rw [← List.map_reverse, List.map_map]
  show _ = (((enumList 0 g.edges).filter _).reverse.map _).map _
  rw [List.map_map]
  apply List.map_congr_left
  intro p hp
  by_cases hpi : p.1 = i
  · simp [Function.comp, hpi]
  · simp [Function.comp, hpi, show ¬ p.1 = 0 + i from by omega]

/-! ## The structural invariant of API-built graphs -/

theorem mk_ne_invalid (L : Nat) (h : L < INVALID_EDGE_INDEX.val) :
    (⟨L⟩ : EdgeIndex) ≠ INVALID_EDGE_INDEX := by
  intro he
  have hval : L = INVALID_EDGE_INDEX.val := congrArg EdgeIndex.val he
  omega

theorem adjacent_edges_eq (g : Graph N E) (m : Nat) (nd : Node N)
    (h : g.nodes[m]? = some nd) (d : Direction) :
    adjacent_edges g ⟨m⟩ d = walkPairs g.edges d g.edges.length (dirGet nd.first_edge d) := by
  simp [adjacent_edges, h]

theorem walkPairs_cons_step (edges : List (Edge E)) (d : Direction) (fuel : Nat)
    (e : EdgeIndex) (ed : Edge E) (hs : e ≠ INVALID_EDGE_INDEX)
    (hg : edges[e.val]? = some ed) :
    walkPairs edges d (fuel + 1) e =
      (walkPairs edges d fuel (dirGet ed.next_edge d)).map (fun l => (e, ed) :: l) := by
  simp [walkPairs, hs, hg]

/-- The invariant every graph state reachable through the public API
satisfies: edge endpoints are in range, and for every node and direction
the adjacency traversal terminates without panic and returns exactly the
reverse-insertion-order filter of the edge arena. -/
structure Inv (g : Graph N E) : Prop where
  src_lt : ∀ e ∈ g.edges, e.source.val < g.nodes.length
  tgt_lt : ∀ e ∈ g.edges, e.target.val < g.nodes.length
  adj : ∀ m : Nat, m < g.nodes.length → ∀ d : Direction,
    adjacent_edges g ⟨m⟩ d = some (adjacencySpec g ⟨m⟩ d)

theorem adjacencySpec_empty_of_unmatched (g : Graph N E) (n : NodeIndex) (d : Direction)
    (h : ∀ e ∈ g.edges, ¬ endpoint e d = n) : adjacencySpec g n d = [] := by
  unfold adjacencySpec
  have hf : (enumList 0 g.edges).filter (fun p => decide (endpoint p.2 d = n)) = [] := by
    rw [List.filter_eq_nil_iff]
    intro p hp
    have hp2 : p.2 ∈ g.edges := by
      rcases (mem_enumList 0 g.edges p.1 p.2).1 (by simpa using hp) with ⟨-, hg⟩
      exact List.mem_iff_getElem?.2 ⟨p.1 - 0, hg⟩
    simpa using h p.2 hp2
  simp [hf]

theorem built_inv {g : Graph N E} (hb : Built g) : Inv g := by
  induction hb with
  | new =>
    exact ⟨by simp [Graph.new], by simp [Graph.new], by simp [Graph.new]⟩
  | addNode g v hb ih =>
    obtain ⟨hsrc, htgt, hadj⟩ := ih
    have hlen : (add_node g v).2.nodes.length = g.nodes.length + 1 := by
      simp [add_node]
    refine ⟨?_, ?_, ?_⟩
    · intro e he
      have := hsrc e he
      simp only [add_node] at he ⊢
      simp only [List.length_append, List.length_cons, List.length_nil]
      omega
    · intro e he
      have := htgt e he
      simp only [add_node] at he ⊢
      simp only [List.length_append, List.length_cons, List.length_nil]
      omega
    · intro m hm d
      rw [hlen] at hm
      by_cases hml : m < g.nodes.length
      · -- an old node: its record and the edge arena are untouched
        obtain ⟨nd, hnd⟩ : ∃ nd, g.nodes[m]? = some nd :=
          ⟨g.nodes[m], List.getElem?_eq_getElem hml⟩
        have hnd' : (add_node g v).2.nodes[m]? = some nd := by
          show (g.nodes ++ [⟨(INVALID_EDGE_INDEX, INVALID_EDGE_INDEX), v⟩])[m]? = some nd
          rw [List.getElem?_append_left hml]
          exact hnd
        rw [adjacent_edges_eq _ m nd hnd' d]
        have hold := hadj m hml d
        rw [adjacent_edges_eq _ m nd hnd d] at hold
        simpa [add_node] using hold
      · -- the freshly added node: both heads are the sentinel and no edge
        -- endpoint can reference it yet
        have hmeq : m = g.nodes.length := by omega
        have hnd' : (add_node g v).2.nodes[m]? =
            some ⟨(INVALID_EDGE_INDEX, INVALID_EDGE_INDEX), v⟩ := by
          subst hmeq
          simp [add_node]
        rw [adjacent_edges_eq _ m _ hnd' d]
        have hhead : dirGet ((⟨(INVALID_EDGE_INDEX, INVALID_EDGE_INDEX), v⟩ :
            Node N)).first_edge d = INVALID_EDGE_INDEX := by
          cases d <;> rfl
        rw [hhead]
        have hspec : adjacencySpec (add_node g v).2 ⟨m⟩ d = [] := by
          apply adjacencySpec_empty_of_unmatched
          intro e he hend
        -- endpoints of existing edges are < old length = m
          have hlt : (endpoint e d).val < g.nodes.length := by
            cases d
            · exact hsrc e (by simpa [add_node] using he)
            · exact htgt e (by simpa [add_node] using he)
          rw [hend] at hlt
          simp at hlt
          omega
        rw [hspec]
        cases hfe : (add_node g v).2.edges.length <;> simp [walkPairs]
  | addEdge g s t v i g' hb hlen heq ih =>
    obtain ⟨hsrc, htgt, hadj⟩ := ih
    cases hsn : g.nodes[s.val]? with
    | none => simp [add_edge, hsn] at heq
    | some sn =>
    cases htn : g.nodes[t.val]? with
    | none => simp [add_edge, hsn, htn] at heq
    | some tn =>
    have hslt : s.val < g.nodes.length := (List.getElem?_eq_some_iff.1 hsn).1
    have htlt : t.val < g.nodes.length := (List.getElem?_eq_some_iff.1 htn).1
    simp only [add_edge, hsn, htn, next_edge_index, Option.some.injEq, Prod.mk.injEq] at heq
    obtain ⟨hieq, hgeq⟩ := heq
    subst hieq
    subst hgeq
    set L := g.edges.length with hL
    set newE : Edge E :=
      ⟨(dirGet sn.first_edge .OUTGOING, dirGet tn.first_edge .INCOMING), s, t, v⟩ with hnewE
    set fsOut : Node N → Node N :=
      (fun nd => { nd with first_edge := dirSet nd.first_edge .OUTGOING ⟨L⟩ }) with hfsOut
    set ftIn : Node N → Node N :=
      (fun nd => { nd with first_edge := dirSet nd.first_edge .INCOMING ⟨L⟩ }) with hftIn
    set nodes2 : List (Node N) := modifyAt (modifyAt g.nodes s.val fsOut) t.val ftIn
      with hnodes2
    have hlen2 : nodes2.length = g.nodes.length := by
      rw [hnodes2, length_modifyAt, length_modifyAt]
    have helen : (g.edges ++ [newE]).length = L + 1 := by simp
    -- the d-side endpoint of the new edge, and the fact that the new edge's
    -- next link in direction d is the old head of that endpoint's list
    have nextFact : ∀ d : Direction, ∃ ndE : Node N,
        g.nodes[(endpoint newE d).val]? = some ndE ∧
        dirGet newE.next_edge d = dirGet ndE.first_edge d := by
      intro d
      cases d
      · exact ⟨sn, by simpa [hnewE, endpoint] using hsn, by simp [hnewE, dirGet]⟩
      · exact ⟨tn, by simpa [hnewE, endpoint] using htn, by simp [hnewE, dirGet]⟩
    -- the adjacency head of node m in the new state
    have headFact : ∀ m : Nat, ∀ nd : Node N, g.nodes[m]? = some nd → ∀ d : Direction,
        ∃ nd2 : Node N, nodes2[m]? = some nd2 ∧
          dirGet nd2.first_edge d =
            (if m = (endpoint newE d).val then ⟨L⟩ else dirGet nd.first_edge d) := by
      intro m nd hnd d
      have hstep : nodes2[m]? =
          (if t.val = m then
            ((if s.val = m then (g.nodes[m]?).map fsOut else g.nodes[m]?)).map ftIn
          else (if s.val = m then (g.nodes[m]?).map fsOut else g.nodes[m]?)) := by
        rw [hnodes2, getElem?_modifyAt, getElem?_modifyAt]
      by_cases hmt : t.val = m <;> by_cases hms : s.val = m
      · refine ⟨ftIn (fsOut nd), by simp [hstep, hmt, hms, hnd], ?_⟩
        cases d
        · simp [hftIn, hfsOut, dirGet_dirSet, hnewE, endpoint, ← hms]
        · simp [hftIn, hfsOut, dirGet_dirSet, hnewE, endpoint, ← hmt]
      · have hms' : ¬ m = s.val := fun h => hms h.symm
        refine ⟨ftIn nd, by simp [hstep, hmt, hms, hnd], ?_⟩
        cases d
        · simp [hftIn, dirGet_dirSet, hnewE, endpoint, hms']
        · simp [hftIn, dirGet_dirSet, hnewE, endpoint, ← hmt]
      · have hmt' : ¬ m = t.val := fun h => hmt h.symm
        refine ⟨fsOut nd, by simp [hstep, hmt, hms, hnd], ?_⟩
        cases d
        · simp [hfsOut, dirGet_dirSet, hnewE, endpoint, ← hms]
        · simp [hfsOut, dirGet_dirSet, hnewE, endpoint, hmt']
      · have hms' : ¬ m = s.val := fun h => hms h.symm
        have hmt' : ¬ m = t.val := fun h => hmt h.symm
        refine ⟨nd, by simp [hstep, hmt, hms, hnd], ?_⟩
        cases d
        · simp [hnewE, endpoint, hms']
        · simp [hnewE, endpoint, hmt']
    refine ⟨?_, ?_, ?_⟩
    · intro e he
      rcases List.mem_append.1 he with h | h
      · rw [hlen2]; exact hsrc e h
      · rw [hlen2]
        have : e = newE := by simpa using h
        rw [this]
        simpa [hnewE] using hslt
    · intro e he
      rcases List.mem_append.1 he with h | h
      · rw [hlen2]; exact htgt e h
      · rw [hlen2]
        have : e = newE := by simpa using h
        rw [this]
        simpa [hnewE] using htlt
    · intro m hm d
      rw [show (Graph.mk nodes2 (g.edges ++ [newE])).nodes.length = g.nodes.length
        from hlen2] at hm
      obtain ⟨nd, hnd⟩ : ∃ nd, g.nodes[m]? = some nd :=
        ⟨g.nodes[m], List.getElem?_eq_getElem hm⟩
      obtain ⟨nd2, hnd2, hhead⟩ := headFact m nd hnd d
      have hold := hadj m hm d
      rw [adjacent_edges_eq g m nd hnd d] at hold
      rw [adjacent_edges_eq _ m nd2 (by exact hnd2) d, hhead]
      show walkPairs (g.edges ++ [newE]) d (g.edges ++ [newE]).length _ = _
      rw [helen]
      rw [adjacencySpec_append g nodes2 newE ⟨m⟩ d]
      by_cases hms : m = (endpoint newE d).val
      · -- the updated head: one new step, then the old traversal
        rw [if_pos hms]
        obtain ⟨ndE, hndE, hnext⟩ := nextFact d
        have hndeq : ndE = nd := by
          rw [← hms] at hndE
          exact Option.some.inj (hndE.symm.trans hnd)
        rw [walkPairs_cons_step (g.edges ++ [newE]) d L ⟨L⟩ newE
          (mk_ne_invalid L hlen) (by simp [List.getElem?_concat_length])]
        rw [hnext, hndeq]
        rw [walkPairs_append g.edges [newE] d L _ _ hold]
        have hEnd : endpoint newE d = (⟨m⟩ : NodeIndex) := by
          rw [hms]
        rw [if_pos hEnd]
        rfl
      · -- untouched head: the old traversal, unchanged
        rw [if_neg hms]
        have hwalk := walkPairs_append g.edges [newE] d L _ _ hold
        have hwalk' := walkPairs_le (g.edges ++ [newE]) d L (L + 1) (by omega) _ _ hwalk
        rw [hwalk']
        have hEnd : ¬ endpoint newE d = (⟨m⟩ : NodeIndex) := by
          intro hcon
          exact hms (by rw [hcon])
        rw [if_neg hEnd]
        rfl
  | mutNode g idx v hb ih =>
    obtain ⟨hsrc, htgt, hadj⟩ := ih
    have hlenn : (mut_node_data g idx v).nodes.length = g.nodes.length := by
      simp [mut_node_data, length_modifyAt]
    refine ⟨?_, ?_, ?_⟩
    · intro e he
      rw [hlenn]
      exact hsrc e (by simpa [mut_node_data] using he)
    · intro e he
      rw [hlenn]
      exact htgt e (by simpa [mut_node_data] using he)
    · intro m hm d
      rw [hlenn] at hm
      obtain ⟨nd, hnd⟩ : ∃ nd, g.nodes[m]? = some nd :=
        ⟨g.nodes[m], List.getElem?_eq_getElem hm⟩
      have hold := hadj m hm d
      rw [adjacent_edges_eq g m nd hnd d] at hold
      by_cases hmi : idx.val = m
      · have hnd' : (mut_node_data g idx v).nodes[m]? = some { nd with data := v } := by
          simp [mut_node_data, getElem?_modifyAt, hmi, hnd]
        rw [adjacent_edges_eq _ m _ hnd' d]
        exact hold
      · have hnd' : (mut_node_data g idx v).nodes[m]? = some nd := by
          simp [mut_node_data, getElem?_modifyAt, hmi, hnd]
        rw [adjacent_edges_eq _ m _ hnd' d]
        exact hold
  | mutEdge g idx v hb ih =>
    obtain ⟨hsrc, htgt, hadj⟩ := ih
    set fd : Edge E → Edge E := (fun ed => { ed with data := v }) with hfd
    have hlene : (mut_edge_data g idx v).edges.length = g.edges.length := by
      simp [mut_edge_data, length_modifyAt]
    have hfend : ∀ ed d', endpoint (fd ed) d' = endpoint ed d' := by
      intro ed d'
      cases d' <;> simp [hfd, endpoint]
    refine ⟨?_, ?_, ?_⟩
    · intro e he
      rcases mem_modifyAt _ _ _ _ (by simpa [mut_edge_data] using he) with h | ⟨b, hb', rfl⟩
      · exact hsrc e h
      · simpa [hfd] using hsrc b hb'
    · intro e he
      rcases mem_modifyAt _ _ _ _ (by simpa [mut_edge_data] using he) with h | ⟨b, hb', rfl⟩
      · exact htgt e h
      · simpa [hfd] using htgt b hb'
    · intro m hm d
      obtain ⟨nd, hnd⟩ : ∃ nd, g.nodes[m]? = some nd :=
        ⟨g.nodes[m], List.getElem?_eq_getElem hm⟩
      have hnd' : (mut_edge_data g idx v).nodes[m]? = some nd := by
        simpa [mut_edge_data] using hnd
      have hold := hadj m hm d
      rw [adjacent_edges_eq g m nd hnd d] at hold
      rw [adjacent_edges_eq _ m nd hnd' d]
      show walkPairs (modifyAt g.edges idx.val fd) d
        (mut_edge_data g idx v).edges.length _ = _
      rw [hlene]
      rw [walkPairs_modifyAt g.edges d idx.val fd (fun ed => rfl) g.edges.length _ _ hold]
      have hspec : adjacencySpec (mut_edge_data g idx v) ⟨m⟩ d =
          (adjacencySpec g ⟨m⟩ d).map
            (fun q => if q.1.val = idx.val then (q.1, fd q.2) else q) := by
        exact adjacencySpec_modifyAt g (mut_edge_data g idx v).nodes idx.val fd hfend ⟨m⟩ d
      rw [hspec]

/-! ## Inversion of `add_edge` and helper facts -/

theorem add_edge_some_eq (g : Graph N E) (s t : NodeIndex) (v : E) (i : EdgeIndex)
    (g' : Graph N E) (h : add_edge g s t v = some (i, g')) :
    ∃ sn tn, g.nodes[s.val]? = some sn ∧ g.nodes[t.val]? = some tn ∧
      i = ⟨g.edges.length⟩ ∧
      g'.edges = g.edges ++
        [⟨(dirGet sn.first_edge .OUTGOING, dirGet tn.first_edge .INCOMING), s, t, v⟩] ∧
      g'.nodes =
        modifyAt
          (modifyAt g.nodes s.val
            (fun nd => { nd with first_edge := dirSet nd.first_edge .OUTGOING ⟨g.edges.length⟩ }))
          t.val
          (fun nd => { nd with first_edge := dirSet nd.first_edge .INCOMING ⟨g.edges.length⟩ }) := by
  cases hsn : g.nodes[s.val]? with
  | none => simp [add_edge, hsn] at h
  | some sn =>
  cases htn : g.nodes[t.val]? with
  | none => simp [add_edge, hsn, htn] at h
  | some tn =>
  refine ⟨sn, tn, rfl, rfl, ?_⟩
  simp only [add_edge, hsn, htn, next_edge_index, Option.some.injEq, Prod.mk.injEq] at h
  obtain ⟨hi, hg⟩ := h
  subst hi
  subst hg
  exact ⟨rfl, rfl, rfl⟩

theorem add_edge_none_iff (g : Graph N E) (s t : NodeIndex) (v : E) :
    add_edge g s t v = none ↔
      g.nodes.length ≤ s.val ∨ g.nodes.length ≤ t.val := by
  constructor
  · intro h
    by_contra hc
    push_neg at hc
    obtain ⟨hs, ht⟩ := hc
    rw [add_edge, List.getElem?_eq_getElem hs, List.getElem?_eq_getElem ht] at h
    simp at h
  · intro h
    rcases h with h | h
    · rw [add_edge, List.getElem?_eq_none_iff.2 h]
    · cases hsn : g.nodes[s.val]? with
      | none => rw [add_edge, hsn]
      | some sn => rw [add_edge, hsn, List.getElem?_eq_none_iff.2 h]

theorem built_addEdgeD (g : Graph N E) (s t : NodeIndex) (v : E) (hg : Built g)
    (hlen : g.edges.length < INVALID_EDGE_INDEX.val) : Built (addEdgeD g s t v) := by
  cases he : add_edge g s t v with
  | none => simpa [addEdgeD, he] using hg
  | some r =>
    have hr : add_edge g s t v = some (r.1, r.2) := by rw [he]
    have := Built.addEdge g s t v r.1 r.2 hg hlen hr
    simpa [addEdgeD, he] using this

theorem built_refGraph : Built refGraph := by
  have h0 : Built refNodes := by
    unfold refNodes
    exact Built.addNode _ _ (Built.addNode _ _ (Built.addNode _ _ (Built.addNode _ _
      (Built.addNode _ _ (Built.addNode _ _ Built.new)))))
  unfold refGraph
  refine built_addEdgeD _ _ _ _ ?_ (by decide)
  refine built_addEdgeD _ _ _ _ ?_ (by decide)
  refine built_addEdgeD _ _ _ _ ?_ (by decide)
  refine built_addEdgeD _ _ _ _ ?_ (by decide)
  refine built_addEdgeD _ _ _ _ ?_ (by decide)
  exact built_addEdgeD _ _ _ _ h0 (by decide)

theorem mem_adjacencySpec_iff (g : Graph N E) (n : NodeIndex) (d : Direction)
    (q : EdgeIndex × Edge E) :
    q ∈ adjacencySpec g n d ↔ g.edges[q.1.val]? = some q.2 ∧ endpoint q.2 d = n := by
  unfold adjacencySpec
  constructor
  · intro h
    obtain ⟨p, hp, hpq⟩ := List.mem_map.1 h
    have hp' := List.mem_reverse.1 hp
    obtain ⟨hmem, hpred⟩ := List.mem_filter.1 hp'
    obtain ⟨-, hg⟩ := (mem_enumList 0 _ p.1 p.2).1 (by simpa using hmem)
    have h1 : q.1.val = p.1 := by rw [← hpq]
    have h2 : q.2 = p.2 := by rw [← hpq]
    rw [h1, h2]
    exact ⟨by simpa using hg, by simpa using hpred⟩
  · rintro ⟨hg, hend⟩
    refine List.mem_map.2 ⟨(q.1.val, q.2), ?_, by simp⟩
    refine List.mem_reverse.2 (List.mem_filter.2 ⟨?_, by simpa using hend⟩)
    exact (mem_enumList 0 _ q.1.val q.2).2 ⟨by omega, by simpa using hg⟩

/-! ## Claim theorems -/

/-- C1: for every API-built graph, every in-range node `n` and every
direction `d`, the adjacency traversal `adjacent_edges(n, d)` (and its
wrappers `outgoing_edges` / `incoming_edges`) terminates at the sentinel
and yields exactly the `(EdgeIndex, edge)` pairs whose `d`-side endpoint
(source for OUTGOING, target for INCOMING) equals `n`, in reverse
insertion order — i.e. the reversed filter of the enumerated edge arena. -/
theorem adjacency_traversal_correct (g : Graph N E) (hb : Built g) (n : NodeIndex)
    (d : Direction) (hn : n.val < g.nodes.length) :
    adjacent_edges g n d = some (adjacencySpec g n d) ∧
    outgoing_edges g n = some (adjacencySpec g n .OUTGOING) ∧
    incoming_edges g n = some (adjacencySpec g n .INCOMING) := by
  have hI := built_inv hb
  have h := hI.adj n.val hn
  exact ⟨h d, h .OUTGOING, h .INCOMING⟩

theorem adjacency_traversal_correct_witness :
    Built refGraph ∧ (1 : Nat) < refGraph.nodes.length ∧
    (adjacent_edges refGraph ⟨1⟩ .INCOMING =
        some (adjacencySpec refGraph ⟨1⟩ .INCOMING) ∧
      outgoing_edges refGraph ⟨1⟩ = some (adjacencySpec refGraph ⟨1⟩ .OUTGOING) ∧
      incoming_edges refGraph ⟨1⟩ = some (adjacencySpec refGraph ⟨1⟩ .INCOMING)) :=
  ⟨built_refGraph, by decide,
    adjacency_traversal_correct refGraph built_refGraph ⟨1⟩ .INCOMING (by decide)⟩

/-- C5: in every API-reachable graph state (including after payload
mutations), for every in-range node and every direction, the node's
`first_edge[d]` head is either the sentinel or the index of an edge whose
`d`-side endpoint equals that node. -/
theorem first_edge_endpoint_invariant (g : Graph N E) (hb : Built g) (n : NodeIndex)
    (hn : n.val < g.nodes.length) (d : Direction) :
    ∃ F, first_adjacent g n d = some F ∧
      (F = INVALID_EDGE_INDEX ∨
        ∃ e, g.edges[F.val]? = some e ∧ endpoint e d = n) := by
  have hI := built_inv hb
  obtain ⟨nd, hnd⟩ : ∃ nd, g.nodes[n.val]? = some nd :=
    ⟨g.nodes[n.val], List.getElem?_eq_getElem hn⟩
  refine ⟨dirGet nd.first_edge d, by simp [first_adjacent, hnd], ?_⟩
  by_cases hF : dirGet nd.first_edge d = INVALID_EDGE_INDEX
  · exact Or.inl hF
  · right
    have hadj := hI.adj n.val hn d
    rw [adjacent_edges_eq g n.val nd hnd d] at hadj
    cases hfuel : g.edges.length with
    | zero =>
      rw [hfuel] at hadj
      simp [walkPairs, hF] at hadj
    | succ L =>
      rw [hfuel] at hadj
      simp only [walkPairs, if_neg hF] at hadj
      cases hg : g.edges[(dirGet nd.first_edge d).val]? with
      | none => simp [hg] at hadj
      | some ed =>
        refine ⟨ed, rfl, ?_⟩
        simp only [hg, Option.map_eq_some'] at hadj
        obtain ⟨l', -, hcons⟩ := hadj
        have hmem : (dirGet nd.first_edge d, ed) ∈ adjacencySpec g ⟨n.val⟩ d := by
          rw [← hcons]
          simp
        have := (mem_adjacencySpec_iff g ⟨n.val⟩ d _).1 hmem
        exact this.2

theorem first_edge_endpoint_invariant_witness :
    Built refGraph ∧ (2 : Nat) < refGraph.nodes.length ∧
    (∃ F, first_adjacent refGraph ⟨2⟩ .INCOMING = some F ∧
      (F = INVALID_EDGE_INDEX ∨
        ∃ e, refGraph.edges[F.val]? = some e ∧ endpoint e .INCOMING = ⟨2⟩)) :=
  ⟨built_refGraph, by decide,
    first_edge_endpoint_invariant refGraph built_refGraph ⟨2⟩ (by decide) .INCOMING⟩

/-- C7: `node_data` immediately after `add_node` returns exactly the
supplied payload, and `edge_data` immediately after a successful
`add_edge` returns exactly the supplied payload. -/
theorem payload_roundtrip (g : Graph N E) (v : N) (w : E) (s t : NodeIndex)
    (i : EdgeIndex) (g' : Graph N E) (he : add_edge g s t w = some (i, g')) :
    node_data (add_node g v).2 (add_node g v).1 = some v ∧
    edge_data g' i = some w := by
  constructor
  · simp [add_node, node_data, next_node_index, List.getElem?_concat_length]
  · obtain ⟨sn, tn, -, -, hi, hedges, -⟩ := add_edge_some_eq g s t w i g' he
    rw [edge_data, hi, hedges]
    simp [List.getElem?_concat_length]

theorem payload_roundtrip_witness :
    add_edge refNodes ⟨0⟩ ⟨1⟩ "AB" = some (⟨0⟩, addEdgeD refNodes ⟨0⟩ ⟨1⟩ "AB") ∧
    (node_data (add_node refNodes "G").2 (add_node refNodes "G").1 = some "G" ∧
      edge_data (addEdgeD refNodes ⟨0⟩ ⟨1⟩ "AB") ⟨0⟩ = some "AB") :=
  ⟨by decide, payload_roundtrip refNodes "G" "AB" ⟨0⟩ ⟨1⟩ ⟨0⟩ _ (by decide)⟩

/-- C8: `add_node` always succeeds, returning the next dense index;
`add_edge` aborts (modelled as `none`) precisely when `source` or `target`
is out of range for the node arena, and under the in-range precondition
its failure branch is unreachable and it returns the fresh edge index. -/
theorem add_edge_failure_iff_out_of_range (g : Graph N E) (s t : NodeIndex) (v : E)
    (w : N) :
    (add_edge g s t v = none ↔ g.nodes.length ≤ s.val ∨ g.nodes.length ≤ t.val) ∧
    (s.val < g.nodes.length → t.val < g.nodes.length →
      ∃ g', add_edge g s t v = some (⟨g.edges.length⟩, g')) ∧
    ((add_node g w).1 = next_node_index g ∧
      (add_node g w).2.nodes.length = g.nodes.length + 1) := by
  refine ⟨add_edge_none_iff g s t v, ?_, rfl, by simp [add_node]⟩
  intro hs ht
  cases he : add_edge g s t v with
  | none =>
    rcases (add_edge_none_iff g s t v).1 he with h | h <;> omega
  | some r =>
    obtain ⟨sn, tn, -, -, hi, -, -⟩ := add_edge_some_eq g s t v r.1 r.2 (by rw [he])
    have hr : r = (⟨g.edges.length⟩, r.2) := by
      obtain ⟨a, b⟩ := r
      rw [show a = (⟨g.edges.length⟩ : EdgeIndex) from hi]
    refine ⟨r.2, ?_⟩
    rw [← hr]

theorem add_edge_failure_iff_out_of_range_witness :
    ((0 : Nat) < refNodes.nodes.length ∧ (9 : Nat) ≥ refNodes.nodes.length) ∧
    ((add_edge refNodes ⟨0⟩ ⟨9⟩ "x" = none ↔
        refNodes.nodes.length ≤ (0 : Nat) ∨ refNodes.nodes.length ≤ (9 : Nat)) ∧
      ((0 : Nat) < refNodes.nodes.length → (9 : Nat) < refNodes.nodes.length →
        ∃ g', add_edge refNodes ⟨0⟩ ⟨9⟩ "x" = some (⟨refNodes.edges.length⟩, g')) ∧
      ((add_node refNodes "G").1 = next_node_index refNodes ∧
        (add_node refNodes "G").2.nodes.length = refNodes.nodes.length + 1)) :=
  ⟨by decide, add_edge_failure_iff_out_of_range refNodes ⟨0⟩ ⟨9⟩ "x" "G"⟩

/-- C10: a successful `add_edge(s, t, v)` changes nothing except the two
redirected list heads: all pre-existing edges are unchanged, all nodes
other than `s` and `t` are unchanged, the payloads of `s` and `t` are
unchanged, for `s ≠ t` the incoming head of `s` and the outgoing head of
`t` are unchanged, and the outgoing head of `s` and incoming head of `t`
both become the new edge's index. -/
theorem add_edge_frame (g : Graph N E) (s t : NodeIndex) (v : E) (i : EdgeIndex)
    (g' : Graph N E) (he : add_edge g s t v = some (i, g')) :
    (∀ j : Nat, j < g.edges.length → g'.edges[j]? = g.edges[j]?) ∧
    (∀ m : Nat, m ≠ s.val → m ≠ t.val → g'.nodes[m]? = g.nodes[m]?) ∧
    (node_data g' s = node_data g s ∧ node_data g' t = node_data g t) ∧
    (s ≠ t →
      first_adjacent g' s .INCOMING = first_adjacent g s .INCOMING ∧
      first_adjacent g' t .OUTGOING = first_adjacent g t .OUTGOING) ∧
    (first_adjacent g' s .OUTGOING = some i ∧
      first_adjacent g' t .INCOMING = some i) := by
  obtain ⟨sn, tn, hsn, htn, hi, hedges, hnodes⟩ := add_edge_some_eq g s t v i g' he
  have hsval : ∀ m, m ≠ s.val → m ≠ t.val → g'.nodes[m]? = g.nodes[m]? := by
    intro m hms hmt
    rw [hnodes, getElem?_modifyAt, getElem?_modifyAt,
      if_neg (fun h => hmt h.symm), if_neg (fun h => hms h.symm)]
  refine ⟨?_, hsval, ⟨?_, ?_⟩, ?_, ?_, ?_⟩
  · intro j hj
    rw [hedges, List.getElem?_append_left hj]
  · -- the payload of s survives both head rewrites
    rw [node_data, node_data, hnodes, getElem?_modifyAt, getElem?_modifyAt]
    by_cases hts : t.val = s.val <;> simp [hts, hsn]
  · rw [node_data, node_data, hnodes, getElem?_modifyAt, getElem?_modifyAt]
    by_cases hst : s.val = t.val <;> simp [hst, htn]
  · intro hst
    have hstv : ¬ s.val = t.val := by
      intro h
      exact hst (by cases s; cases t; simp_all)
    constructor
    · rw [first_adjacent, first_adjacent, hnodes, getElem?_modifyAt, getElem?_modifyAt,
        if_neg (fun h => hstv h.symm), if_pos rfl, hsn]
      simp [dirGet_dirSet]
    · rw [first_adjacent, first_adjacent, hnodes, getElem?_modifyAt, getElem?_modifyAt,
        if_pos rfl, if_neg hstv, htn]
      simp [dirGet_dirSet]
  · rw [first_adjacent, hnodes, getElem?_modifyAt, getElem?_modifyAt]
    by_cases hts : t.val = s.val <;> simp [hts, hsn, dirGet_dirSet, hi]
  · rw [first_adjacent, hnodes, getElem?_modifyAt]
    by_cases hst : s.val = t.val <;> simp [hst, htn, getElem?_modifyAt, dirGet_dirSet, hi]

theorem add_edge_frame_witness :
    add_edge refNodes ⟨1⟩ ⟨2⟩ "BC" = some (⟨0⟩, addEdgeD refNodes ⟨1⟩ ⟨2⟩ "BC") ∧
    ((∀ j : Nat, j < refNodes.edges.length →
        (addEdgeD refNodes ⟨1⟩ ⟨2⟩ "BC").edges[j]? = refNodes.edges[j]?) ∧
      (∀ m : Nat, m ≠ (1 : Nat) → m ≠ (2 : Nat) →
        (addEdgeD refNodes ⟨1⟩ ⟨2⟩ "BC").nodes[m]? = refNodes.nodes[m]?) ∧
      (node_data (addEdgeD refNodes ⟨1⟩ ⟨2⟩ "BC") ⟨1⟩ = node_data refNodes ⟨1⟩ ∧
        node_data (addEdgeD refNodes ⟨1⟩ ⟨2⟩ "BC") ⟨2⟩ = node_data refNodes ⟨2⟩) ∧
      ((⟨1⟩ : NodeIndex) ≠ ⟨2⟩ →
        first_adjacent (addEdgeD refNodes ⟨1⟩ ⟨2⟩ "BC") ⟨1⟩ .INCOMING =
          first_adjacent refNodes ⟨1⟩ .INCOMING ∧
        first_adjacent (addEdgeD refNodes ⟨1⟩ ⟨2⟩ "BC") ⟨2⟩ .OUTGOING =
          first_adjacent refNodes ⟨2⟩ .OUTGOING) ∧
      (first_adjacent (addEdgeD refNodes ⟨1⟩ ⟨2⟩ "BC") ⟨1⟩ .OUTGOING = some ⟨0⟩ ∧
        first_adjacent (addEdgeD refNodes ⟨1⟩ ⟨2⟩ "BC") ⟨2⟩ .INCOMING = some ⟨0⟩)) :=
  ⟨by decide, add_edge_frame refNodes ⟨1⟩ ⟨2⟩ "BC" ⟨0⟩ _ (by decide)⟩

/-! ## Callback iteration lemmas and claims C6, C9 -/

theorem eachAux_all_true (f : σ → Nat × α → Bool × σ) :
    ∀ l s, allMark f l s = true → eachAux f l s = (true, runStates f l s) := by
  intro l
  induction l with
  | nil => intro s h; rfl
  | cons x xs ih =>
    intro s h
    cases hfx : f s x with
    | mk b s' =>
      rw [allMark, hfx] at h
      simp only [Bool.and_eq_true] at h
      obtain ⟨hb, hrest⟩ := h
      subst hb
      rw [eachAux, hfx]
      rw [runStates, hfx]
      exact ih s' hrest

theorem eachAux_early_exit (f : σ → Nat × α → Bool × σ) :
    ∀ pre s x suf, allMark f pre s = true → (f (runStates f pre s) x).1 = false →
      eachAux f (pre ++ x :: suf) s = (false, (f (runStates f pre s) x).2) := by
  intro pre
  induction pre with
  | nil =>
    intro s x suf hall hx
    cases hfx : f s x with
    | mk b s' =>
      rw [runStates] at hx ⊢
      rw [hfx] at hx
      simp only at hx
      subst hx
      show eachAux f (x :: suf) s = _
      rw [eachAux, hfx]
  | cons p pre ih =>
    intro s x suf hall hx
    cases hfp : f s p with
    | mk b s' =>
      rw [allMark, hfp] at hall
      simp only [Bool.and_eq_true] at hall
      obtain ⟨hb, hrest⟩ := hall
      subst hb
      rw [runStates, hfp] at hx ⊢
      show eachAux f (p :: (pre ++ x :: suf)) s = _
      rw [eachAux, hfp]
      exact ih s' x suf hrest hx

/-- C9: `each_node` invokes the callback on `(NodeIndex(i), node)` pairs in
arena order, threading the callback's mutable state; if every invocation
returns `true` it returns `true` with the fully threaded state, and as soon
as one invocation returns `false` it returns `false` with the state
produced by that very invocation — the suffix after the failing element is
never visited (the result does not depend on it).  Likewise for
`each_edge` over edges. -/
theorem each_callback_early_exit {σ : Type} (g : Graph N E)
    (f : σ → NodeIndex → Node N → Bool × σ) (f' : σ → EdgeIndex → Edge E → Bool × σ)
    (s s' : σ) :
    (allMark (nodeAdapter f) (enumList 0 g.nodes) s = true →
      each_node g f s = (true, runStates (nodeAdapter f) (enumList 0 g.nodes) s)) ∧
    (∀ pre x suf, enumList 0 g.nodes = pre ++ x :: suf →
      allMark (nodeAdapter f) pre s = true →
      (nodeAdapter f (runStates (nodeAdapter f) pre s) x).1 = false →
      each_node g f s = (false, (nodeAdapter f (runStates (nodeAdapter f) pre s) x).2)) ∧
    (allMark (edgeAdapter f') (enumList 0 g.edges) s' = true →
      each_edge g f' s' = (true, runStates (edgeAdapter f') (enumList 0 g.edges) s')) ∧
    (∀ pre x suf, enumList 0 g.edges = pre ++ x :: suf →
      allMark (edgeAdapter f') pre s' = true →
      (edgeAdapter f' (runStates (edgeAdapter f') pre s') x).1 = false →
      each_edge g f' s' = (false, (edgeAdapter f' (runStates (edgeAdapter f') pre s') x).2)) := by
  refine ⟨?_, ?_, ?_, ?_⟩
  · intro h
    exact eachAux_all_true (nodeAdapter f) _ s h
  · intro pre x suf henum hall hx
    rw [each_node, henum]
    exact eachAux_early_exit (nodeAdapter f) pre s x suf hall hx
  · intro h
    exact eachAux_all_true (edgeAdapter f') _ s' h
  · intro pre x suf henum hall hx
    rw [each_edge, henum]
    exact eachAux_early_exit (edgeAdapter f') pre s' x suf hall hx

theorem each_callback_early_exit_witness :
    allMark (nodeAdapter (fun (c : Nat) _ _ => (true, c + 1)))
        (enumList 0 refGraph.nodes) 0 = true ∧
    each_node refGraph (fun (c : Nat) _ _ => (true, c + 1)) 0 =
      (true, runStates (nodeAdapter (fun (c : Nat) _ _ => (true, c + 1)))
        (enumList 0 refGraph.nodes) 0) :=
  ⟨by decide,
    (each_callback_early_exit refGraph (fun (c : Nat) _ _ => (true, c + 1))
      (fun (c : Nat) _ _ => (true, c + 1)) 0 0).1 (by decide)⟩

theorem runOps_range (ops : List (GraphOp N E)) :
    ∀ (g : Graph N E) (gf : Graph N E) ns es, runOps g ops = some (gf, ns, es) →
      ns.map NodeIndex.val = List.range' g.nodes.length ns.length ∧
      es.map EdgeIndex.val = List.range' g.edges.length es.length := by
  induction ops with
  | nil =>
    intro g gf ns es h
    rw [runOps] at h
    simp only [Option.some.injEq, Prod.mk.injEq] at h
    obtain ⟨-, rfl, rfl⟩ := h
    simp
  | cons op ops ih =>
    intro g gf ns es h
    cases op with
    | addNode v =>
      rw [runOps] at h
      cases hro : runOps (add_node g v).2 ops with
      | none => rw [hro] at h; simp at h
      | some r =>
        rw [hro] at h
        simp only [Option.map_some', Option.some.injEq, Prod.mk.injEq] at h
        obtain ⟨-, hns, hes⟩ := h
        obtain ⟨ih1, ih2⟩ := ih (add_node g v).2 r.1 r.2.1 r.2.2 (by rw [hro])
        have hnlen : (add_node g v).2.nodes.length = g.nodes.length + 1 := by
          simp [add_node]
        have helen : (add_node g v).2.edges.length = g.edges.length := rfl
        rw [hnlen] at ih1
        rw [helen] at ih2
        constructor
        · rw [← hns]
          simp only [List.map_cons, List.length_cons, ih1]
          rw [List.range'_succ]
          rfl
        · rw [← hes]
          exact ih2
    | addEdge st tt v =>
      rw [runOps] at h
      cases hae : add_edge g st tt v with
      | none => rw [hae] at h; simp at h
      | some p =>
        rw [hae] at h
        obtain ⟨i, g'⟩ := p
        dsimp only at h
        cases hro : runOps g' ops with
        | none => rw [hro] at h; simp at h
        | some r =>
          rw [hro] at h
          simp only [Option.map_some', Option.some.injEq, Prod.mk.injEq] at h
          obtain ⟨-, hns, hes⟩ := h
          obtain ⟨sn, tn, -, -, hi, hedges, hnodes⟩ := add_edge_some_eq g st tt v i g' hae
          have hnlen : g'.nodes.length = g.nodes.length := by
            rw [hnodes, length_modifyAt, length_modifyAt]
          have helen : g'.edges.length = g.edges.length + 1 := by
            rw [hedges]
            simp
          obtain ⟨ih1, ih2⟩ := ih g' r.1 r.2.1 r.2.2 (by rw [hro])
          rw [hnlen] at ih1
          rw [helen] at ih2
          constructor
          · rw [← hns]
            exact ih1
          · rw [← hes]
            simp only [List.map_cons, List.length_cons, ih2, hi]
            rw [List.range'_succ]

/-- C6: for every sequence of `add_node` / `add_edge` calls starting from
`Graph::new()` (with all `add_edge` calls succeeding), the node indices
returned by the successive `add_node` calls are exactly `0, 1, 2, …` in
call order (each equal to the node-arena length at call time), and the
edge indices returned by the successive `add_edge` calls independently
satisfy the same property over the edge arena: dense, zero-based, strictly
increasing, never repeating. -/
theorem arena_indices_monotone (ops : List (GraphOp N E)) (gf : Graph N E)
    (ns : List NodeIndex) (es : List EdgeIndex)
    (h : runOps Graph.new ops = some (gf, ns, es)) :
    ns.map NodeIndex.val = List.range ns.length ∧
    es.map EdgeIndex.val = List.range es.length := by
  have hr := runOps_range ops Graph.new gf ns es h
  simpa [Graph.new, List.range_eq_range'] using hr

theorem arena_indices_monotone_witness :
    runOps (Graph.new : Graph String String)
        [.addNode "A", .addNode "B", .addEdge ⟨0⟩ ⟨1⟩ "AB", .addEdge ⟨1⟩ ⟨0⟩ "BA"] =
      some (addEdgeD (addEdgeD (add_node (add_node Graph.new "A").2 "B").2 ⟨0⟩ ⟨1⟩ "AB")
          ⟨1⟩ ⟨0⟩ "BA",
        [⟨0⟩, ⟨1⟩], [⟨0⟩, ⟨1⟩]) ∧
    (([⟨0⟩, ⟨1⟩] : List NodeIndex).map NodeIndex.val =
        List.range ([⟨0⟩, ⟨1⟩] : List NodeIndex).length ∧
      ([⟨0⟩, ⟨1⟩] : List EdgeIndex).map EdgeIndex.val =
        List.range ([⟨0⟩, ⟨1⟩] : List EdgeIndex).length) :=
  ⟨by decide,
    arena_indices_monotone
      [GraphOp.addNode "A", GraphOp.addNode "B",
        GraphOp.addEdge ⟨0⟩ ⟨1⟩ "AB", GraphOp.addEdge ⟨1⟩ ⟨0⟩ "BA"]
      (addEdgeD (addEdgeD (add_node (add_node Graph.new "A").2 "B").2 ⟨0⟩ ⟨1⟩ "AB")
        ⟨1⟩ ⟨0⟩ "BA")
      [⟨0⟩, ⟨1⟩] [⟨0⟩, ⟨1⟩] (by decide)⟩

/-! ## Claim C2: the concrete depth-first scenario -/

/-- C2 counterexample: on the reference graph, `depth_traverse` starting at
B does NOT yield the payloads in the order B, D, E, C claimed by the spec.
(Outgoing edges of B are listed BD before BC; their targets are pushed in
that order onto the stack, so C — pushed last — is popped first.) -/
theorem depth_traverse_scenario_counterexample :
    ¬ depthTraverseData refGraph ⟨1⟩ = some ["B", "D", "E", "C"] := by
  decide

/-- C2 amended: the depth-first traversal of the reference graph starting
at B yields the node payloads in the order B, C, D, E (each target pushed
in adjacency order, the last-pushed target popped first). -/
theorem depth_traverse_scenario :
    depthTraverseData refGraph ⟨1⟩ = some ["B", "C", "D", "E"] := by
  decide

/-! ## Fixed-point driver lemmas and claim C4 -/

theorem fpLoop_empty (g : Graph N E) (hg : g.edges = [])
    (op : σ → Nat → EdgeIndex → Edge E → Bool × σ) (fuel j : Nat) (s : σ) :
    fpLoop g op (fuel + 1) j s = some (j + 1, s) := by
  have he : enumList 0 g.edges = ([] : List (Nat × Edge E)) := by rw [hg]; rfl
  rw [fpLoop, he]
  rfl

theorem fpLoop_chain (g : Graph N E) (op : σ → Nat → EdgeIndex → Edge E → Bool × σ)
    (s0 : σ) :
    ∀ fuel j k s', fpLoop g op fuel j (passState g op s0 j) = some (k, s') →
      j < k ∧ s' = passState g op s0 k ∧ passChanged g op s0 (k - 1) = false ∧
      ∀ m, j ≤ m → m < k - 1 → passChanged g op s0 m = true := by
  intro fuel
  induction fuel with
  | zero =>
    intro j k s' h
    simp [fpLoop] at h
  | succ fuel ih =>
    intro j k s' h
    rw [fpLoop] at h
    cases hp : fpPass op (j + 1) (enumList 0 g.edges) (passState g op s0 j) false with
    | mk changed s1 =>
      rw [hp] at h
      have hs1 : passState g op s0 (j + 1) = s1 := by
        rw [passState, hp]
      have hch : passChanged g op s0 j = changed := by
        rw [passChanged, hp]
      cases changed with
      | true =>
        simp only [if_pos rfl] at h
        rw [← hs1] at h
        obtain ⟨h1, h2, h3, h4⟩ := ih (j + 1) k s' h
        refine ⟨by omega, h2, h3, ?_⟩
        intro m hm1 hm2
        rcases Nat.eq_or_lt_of_le hm1 with rfl | hlt
        · exact hch
        · exact h4 m (by omega) hm2
      | false =>
        simp only [Bool.false_eq_true, if_false, Option.some.injEq, Prod.mk.injEq] at h
        obtain ⟨rfl, rfl⟩ := h
        refine ⟨by omega, hs1.symm, by simpa using hch, ?_⟩
        intro m hm1 hm2
        omega

theorem fpPass_logOp (op : σ → Nat → EdgeIndex → Edge E → Bool × σ) (c : Nat) :
    ∀ (l : List (Nat × Edge E)) (s : σ) (acc : List (Nat × Nat)) (changed : Bool),
      fpPass (logOp op) c l (s, acc) changed =
        ((fpPass op c l s changed).1,
          ((fpPass op c l s changed).2, acc ++ l.map (fun p => (c, p.1)))) := by
  intro l
  induction l with
  | nil =>
    intro s acc changed
    simp [fpPass]
  | cons x rest ih =>
    intro s acc changed
    obtain ⟨i, e⟩ := x
    cases hop : op s c ⟨i⟩ e with
    | mk b s1 =>
      rw [fpPass, fpPass]
      show fpPass (logOp op) c rest (logOp op (s, acc) c ⟨i⟩ e).2 (changed || (logOp op (s, acc) c ⟨i⟩ e).1) = _
      rw [show logOp op (s, acc) c ⟨i⟩ e = (b, (s1, acc ++ [(c, i)])) from by
        rw [logOp, hop]]
      rw [show (match op s c ⟨i⟩ e with
          | (b, s') => fpPass op c rest s' (changed || b)) =
          fpPass op c rest s1 (changed || b) from by rw [hop]]
      rw [ih s1 (acc ++ [(c, i)]) (changed || b)]
      simp

theorem enumList_log (l : List α) (c : Nat) :
    ∀ k, (enumList k l).map (fun p => (c, p.1)) =
      (List.range' k l.length).map (fun i => (c, i)) := by
  induction l with
  | nil => intro k; rfl
  | cons x xs ih =>
    intro k
    simp only [enumList, List.map_cons, List.length_cons, List.range'_succ, ih]

theorem logSpan_cons (m j k : Nat) (h : j < k) :
    logSpan m j k = passLog m (j + 1) ++ logSpan m (j + 1) k := by
  unfold logSpan
  rw [show k - j = (k - (j + 1)) + 1 from by omega, List.range'_succ]
  simp

theorem logSpan_self (m k : Nat) : logSpan m k k = [] := by
  simp [logSpan]

theorem fpLoop_logOp (g : Graph N E) (op : σ → Nat → EdgeIndex → Edge E → Bool × σ) :
    ∀ fuel j (s : σ) acc k s' log,
      fpLoop g (logOp op) fuel j (s, acc) = some (k, (s', log)) →
        fpLoop g op fuel j s = some (k, s') ∧ j < k ∧
        log = acc ++ logSpan g.edges.length j k := by
  intro fuel
  induction fuel with
  | zero =>
    intro j s acc k s' log h
    simp [fpLoop] at h
  | succ fuel ih =>
    intro j s acc k s' log h
    rw [fpLoop] at h
    rw [fpPass_logOp op (j + 1) (enumList 0 g.edges) s acc false] at h
    have hlog : (enumList 0 g.edges).map (fun p => ((j : Nat) + 1, p.1)) =
        passLog g.edges.length (j + 1) := by
      rw [enumList_log g.edges (j + 1) 0, passLog, List.range_eq_range']
    rw [hlog] at h
    cases hp : fpPass op (j + 1) (enumList 0 g.edges) s false with
    | mk changed s1 =>
      rw [hp] at h
      rw [fpLoop, hp]
      cases changed with
      | true =>
        simp only [if_pos rfl] at h ⊢
        obtain ⟨h1, h2, h3⟩ := ih (j + 1) s1 (acc ++ passLog g.edges.length (j + 1)) k s' log h
        refine ⟨h1, by omega, ?_⟩
        rw [h3, logSpan_cons g.edges.length j k (by omega), List.append_assoc]
      | false =>
        simp only [Bool.false_eq_true, if_false, Option.some.injEq, Prod.mk.injEq] at h ⊢
        obtain ⟨rfl, rfl, rfl⟩ := h
        refine ⟨⟨rfl, rfl⟩, by omega, ?_⟩
        rw [logSpan_cons g.edges.length j (j + 1) (by omega), logSpan_self]
        simp

theorem expectedLog_eq_logSpan (m : Nat) : ∀ k, expectedLog k m = logSpan m 0 k := by
  intro k
  induction k with
  | zero => rfl
  | succ k ih =>
    rw [expectedLog, ih]
    unfold logSpan
    rw [Nat.sub_zero, Nat.sub_zero, List.range'_concat]
    simp only [List.map_append, List.flatten_append]
    simp [Nat.add_comm]

/-- C4: the fixed-point driver maintains an iteration counter starting at 0
and a changed flag starting `true`; each pass resets the flag, increments
the counter, and invokes `op(iteration, EdgeIndex(i), edge)` once for each
edge in arena order, OR-ing the results; it returns exactly after the
first full pass reporting no change, so the passes executed are numbered
`1..k` with passes `1..k-1` each reporting a change and pass `k` none, the
first pass runs with iteration number 1, an edgeless graph terminates
after a single empty pass, and the complete invocation log is
`(iteration j, edge index i)` for `j = 1..k`, `i = 0..m-1` in order. -/
theorem fixed_point_driver {σ : Type} (g : Graph N E)
    (op : σ → Nat → EdgeIndex → Edge E → Bool × σ) (s : σ) (fuel k : Nat) (s' : σ)
    (log : List (Nat × Nat)) :
    (g.edges = [] → iterate_until_fixed_point g op s (fuel + 1) = some (1, s)) ∧
    (iterate_until_fixed_point g op s fuel = some (k, s') →
      1 ≤ k ∧ s' = passState g op s k ∧ passChanged g op s (k - 1) = false ∧
      ∀ m, m < k - 1 → passChanged g op s m = true) ∧
    (iterate_until_fixed_point g (logOp op) (s, []) fuel = some (k, (s', log)) →
      iterate_until_fixed_point g op s fuel = some (k, s') ∧
      log = expectedLog k g.edges.length) := by
  refine ⟨?_, ?_, ?_⟩
  · intro hg
    exact fpLoop_empty g hg op fuel 0 s
  · intro h
    have h0 : fpLoop g op fuel 0 (passState g op s 0) = some (k, s') := h
    obtain ⟨h1, h2, h3, h4⟩ := fpLoop_chain g op s fuel 0 k s' h0
    exact ⟨by omega, h2, h3, fun m hm => h4 m (by omega) hm⟩
  · intro h
    obtain ⟨h1, h2, h3⟩ := fpLoop_logOp g op fuel 0 s [] k s' log h
    refine ⟨h1, ?_⟩
    rw [h3, expectedLog_eq_logSpan]
    rfl

theorem fixed_point_driver_witness :
    iterate_until_fixed_point refGraph (fun (u : Nat) _ _ _ => (false, u)) 0 5 =
      some (1, 0) ∧
    (1 ≤ 1 ∧ (0 : Nat) = passState refGraph (fun (u : Nat) _ _ _ => (false, u)) 0 1 ∧
      passChanged refGraph (fun (u : Nat) _ _ _ => (false, u)) 0 (1 - 1) = false ∧
      ∀ m, m < 1 - 1 → passChanged refGraph (fun (u : Nat) _ _ _ => (false, u)) 0 m = true) :=
  ⟨by decide,
    (fixed_point_driver refGraph (fun (u : Nat) _ _ _ => (false, u)) 0 5 1 0 []).2.1
      (by decide)⟩

/-! ## Depth-first traversal lemmas -/

theorem nodeIndex_ext (x y : NodeIndex) (h : x.val = y.val) : x = y := by
  cases x
  cases y
  simpa using h

theorem dftNext_done (g : Graph N E) : ∀ (stack : List NodeIndex) (visited : Finset Nat),
    (∀ x ∈ stack, x.val ∈ visited) → dftNext g stack visited = .done := by
  intro stack
  induction stack with
  | nil => intro visited h; rfl
  | cons x rest ih =>
    intro visited h
    rw [dftNext, if_pos (h x (by simp))]
    exact ih visited (fun y hy => h y (by simp [hy]))

theorem dftRun_skip (g : Graph N E) (fuel : Nat) (x : NodeIndex) (rest : List NodeIndex)
    (visited : Finset Nat) (hx : x.val ∈ visited) :
    dftRun g fuel (x :: rest) visited = dftRun g fuel rest visited := by
  have hstep : dftNext g (x :: rest) visited = dftNext g rest visited := by
    rw [dftNext, if_pos hx]
  cases fuel with
  | zero => simp only [dftRun, hstep]
  | succ f => simp only [dftRun, hstep]

theorem dftNext_yield (g : Graph N E) (x : NodeIndex) (rest : List NodeIndex)
    (visited : Finset Nat) (adj : List (EdgeIndex × Edge E)) (v : N)
    (hx : x.val ∉ visited) (hadj : adjacent_edges g x .OUTGOING = some adj)
    (hdata : node_data g x = some v) :
    dftNext g (x :: rest) visited = .yield x v
      (adj.foldl
        (fun st p => if p.2.target.val ∈ insert x.val visited then st else p.2.target :: st)
        rest)
      (insert x.val visited) := by
  simp only [dftNext, if_neg hx, hadj, hdata]

theorem dftRun_yield (g : Graph N E) (fuel : Nat) (stack : List NodeIndex)
    (visited : Finset Nat) (idx : NodeIndex) (v : N) (stack' : List NodeIndex)
    (visited' : Finset Nat)
    (h : dftNext g stack visited = .yield idx v stack' visited') :
    dftRun g (fuel + 1) stack visited =
      (dftRun g fuel stack' visited').map (fun l => (idx, v) :: l) := by
  simp only [dftRun, h]

theorem foldl_push_mem (visited' : Finset Nat) :
    ∀ (adj : List (EdgeIndex × Edge E)) (st : List NodeIndex) (y : NodeIndex),
      (y ∈ adj.foldl
        (fun st p => if p.2.target.val ∈ visited' then st else p.2.target :: st) st ↔
        y ∈ st ∨ ∃ p ∈ adj, p.2.target = y ∧ p.2.target.val ∉ visited') := by
  intro adj
  induction adj with
  | nil => intro st y; simp
  | cons q adj ih =>
    intro st y
    rw [List.foldl_cons, ih]
    by_cases hq : q.2.target.val ∈ visited'
    · rw [if_pos hq]
      constructor
      · rintro (h | ⟨p, hp, ht, hnv⟩)
        · exact Or.inl h
        · exact Or.inr ⟨p, by simp [hp], ht, hnv⟩
      · rintro (h | ⟨p, hp, ht, hnv⟩)
        · exact Or.inl h
        · rcases List.mem_cons.1 hp with rfl | hp'
          · exact absurd hq hnv
          · exact Or.inr ⟨p, hp', ht, hnv⟩
    · rw [if_neg hq]
      constructor
      · rintro (h | ⟨p, hp, ht, hnv⟩)
        · rcases List.mem_cons.1 h with rfl | h'
          · exact Or.inr ⟨q, by simp, rfl, hq⟩
          · exact Or.inl h'
        · exact Or.inr ⟨p, by simp [hp], ht, hnv⟩
      · rintro (h | ⟨p, hp, ht, hnv⟩)
        · exact Or.inl (by simp [h])
        · rcases List.mem_cons.1 hp with rfl | hp'
          · exact Or.inl (by simp [ht])
          · exact Or.inr ⟨p, hp', ht, hnv⟩

theorem succ_iff_adjSpec (g : Graph N E) (x w : NodeIndex) :
    Succ g x w ↔ ∃ q ∈ adjacencySpec g x .OUTGOING, q.2.target = w := by
  constructor
  · rintro ⟨e, he, hsrc, htgt⟩
    obtain ⟨i, hi⟩ := List.mem_iff_getElem?.1 he
    refine ⟨(⟨i⟩, e), (mem_adjacencySpec_iff g x .OUTGOING (⟨i⟩, e)).2
      ⟨by simpa using hi, ?_⟩, htgt⟩
    simpa [endpoint] using hsrc
  · rintro ⟨q, hq, htgt⟩
    obtain ⟨hget, hend⟩ := (mem_adjacencySpec_iff _ _ _ _).1 hq
    exact ⟨q.2, List.mem_iff_getElem?.2 ⟨q.1.val, hget⟩, by simpa [endpoint] using hend, htgt⟩

theorem adjSpec_edge_mem (g : Graph N E) (x : NodeIndex) (d : Direction)
    (q : EdgeIndex × Edge E) (hq : q ∈ adjacencySpec g x d) : q.2 ∈ g.edges := by
  obtain ⟨hget, -⟩ := (mem_adjacencySpec_iff _ _ _ _).1 hq
  exact List.mem_iff_getElem?.2 ⟨q.1.val, hget⟩

/-- The DFS run invariant: from any intermediate state whose stack holds
only in-range, reachable nodes, whose visited set holds only in-range,
reachable nodes, which is successor-closed up to the stack, and with
enough fuel, the run completes without panic; the yielded indices are
fresh, distinct, in range and reachable, every stack entry ends up
covered, and the final covered set is successor-closed. -/
theorem dftRun_spec (g : Graph N E) (hI : Inv g) (start : NodeIndex) :
    ∀ (fuel : Nat) (stack : List NodeIndex) (visited : Finset Nat),
      (∀ x ∈ stack, x.val < g.nodes.length ∧ Reach g start x) →
      (∀ v ∈ visited, v < g.nodes.length ∧ Reach g start ⟨v⟩) →
      (∀ v ∈ visited, ∀ w : NodeIndex, Succ g ⟨v⟩ w → w.val ∈ visited ∨ w ∈ stack) →
      g.nodes.length ≤ fuel + visited.card →
      ∃ L : List (NodeIndex × N),
        dftRun g fuel stack visited = some L ∧
        (L.map (fun p => p.1.val)).Nodup ∧
        (∀ p ∈ L, p.1.val ∉ visited) ∧
        (∀ p ∈ L, p.1.val < g.nodes.length ∧ Reach g start p.1 ∧
          node_data g p.1 = some p.2) ∧
        (∀ x ∈ stack, x.val ∈ visited ∨ ∃ p ∈ L, p.1 = x) ∧
        (∀ v : Nat, (v ∈ visited ∨ ∃ p ∈ L, p.1.val = v) →
          ∀ w : NodeIndex, Succ g ⟨v⟩ w →
            w.val ∈ visited ∨ ∃ p ∈ L, p.1.val = w.val) := by
  intro fuel
  induction fuel with
  | zero =>
    intro stack visited hstk hvis hclo hfuel
    have hvrange : visited = Finset.range g.nodes.length := by
      apply Finset.eq_of_subset_of_card_le
      · exact fun v hv => Finset.mem_range.2 (hvis v hv).1
      · have hsub : visited ⊆ Finset.range g.nodes.length :=
          fun v hv => Finset.mem_range.2 (hvis v hv).1
        have h1 : visited.card ≤ g.nodes.length := by
          simpa using Finset.card_le_card hsub
        simpa using hfuel
    have hall : ∀ x ∈ stack, x.val ∈ visited := by
      intro x hx
      rw [hvrange]
      exact Finset.mem_range.2 (hstk x hx).1
    have hdone := dftNext_done g stack visited hall
    refine ⟨[], by simp only [dftRun, hdone], by simp, by simp, by simp, ?_, ?_⟩
    · intro x hx
      exact Or.inl (hall x hx)
    · intro v hv w hw
      rcases hv with hv | ⟨p, hp, -⟩
      · rcases hclo v hv w hw with h | h
        · exact Or.inl h
        · exact Or.inl (hall w h)
      · simp at hp
  | succ fuel ihf =>
    intro stack
    induction stack with
    | nil =>
      intro visited hstk hvis hclo hfuel
      have hdone : dftNext g ([] : List NodeIndex) visited = .done := rfl
      refine ⟨[], by simp only [dftRun, hdone], by simp, by simp, by simp, by simp, ?_⟩
      intro v hv w hw
      rcases hv with hv | ⟨p, hp, -⟩
      · rcases hclo v hv w hw with h | h
        · exact Or.inl h
        · simp at h
      · simp at hp
    | cons x rest ihs =>
      intro visited hstk hvis hclo hfuel
      by_cases hx : x.val ∈ visited
      · -- the popped node is already visited: skip it
        obtain ⟨L, hrun, hnd, hfresh, hprop, hcov, hclo'⟩ :=
          ihs visited (fun y hy => hstk y (by simp [hy])) hvis
            (fun v hv w hw => by
              rcases hclo v hv w hw with h | h
              · exact Or.inl h
              · rcases List.mem_cons.1 h with rfl | h'
                · exact Or.inl hx
                · exact Or.inr h')
            hfuel
        refine ⟨L, ?_, hnd, hfresh, hprop, ?_, hclo'⟩
        · rw [dftRun_skip g _ x rest visited hx]
          exact hrun
        · intro y hy
          rcases List.mem_cons.1 hy with rfl | hy'
          · exact Or.inl hx
          · exact hcov y hy'
      · -- the popped node is fresh: yield it
        have hxmem : x ∈ x :: rest := by simp
        have hxlt : x.val < g.nodes.length := (hstk x hxmem).1
        have hxreach : Reach g start x := (hstk x hxmem).2
        have hadj : adjacent_edges g x .OUTGOING =
            some (adjacencySpec g x .OUTGOING) := hI.adj x.val hxlt .OUTGOING
        have hdata : node_data g x = some (g.nodes[x.val]).data := by
          rw [node_data, List.getElem?_eq_getElem hxlt]
          rfl
        set adj := adjacencySpec g x .OUTGOING with hadjdef
        set visited' := insert x.val visited with hvisdef
        set stack' := adj.foldl
          (fun st p => if p.2.target.val ∈ visited' then st else p.2.target :: st) rest
          with hstkdef
        have hnext := dftNext_yield g x rest visited adj (g.nodes[x.val]).data hx hadj hdata
        have hstkmem : ∀ y, y ∈ stack' ↔
            y ∈ rest ∨ ∃ p ∈ adj, p.2.target = y ∧ p.2.target.val ∉ visited' :=
          fun y => foldl_push_mem visited' adj rest y
        -- hypotheses for the recursive state
        have hstk'' : ∀ y ∈ stack', y.val < g.nodes.length ∧ Reach g start y := by
          intro y hy
          rcases (hstkmem y).1 hy with h | ⟨p, hp, ht, -⟩
          · exact hstk y (by simp [h])
          · have hedge : p.2 ∈ g.edges := adjSpec_edge_mem g x .OUTGOING p hp
            have hsucc : Succ g x y := by
              rw [succ_iff_adjSpec]
              exact ⟨p, hp, ht⟩
            exact ⟨ht ▸ hI.tgt_lt p.2 hedge, Relation.ReflTransGen.tail hxreach hsucc⟩
        have hvis'' : ∀ v ∈ visited', v < g.nodes.length ∧ Reach g start ⟨v⟩ := by
          intro v hv
          rcases Finset.mem_insert.1 hv with rfl | hv'
          · exact ⟨hxlt, hxreach⟩
          · exact hvis v hv'
        have hclo'' : ∀ v ∈ visited', ∀ w : NodeIndex,
            Succ g ⟨v⟩ w → w.val ∈ visited' ∨ w ∈ stack' := by
          intro v hv w hw
          rcases Finset.mem_insert.1 hv with rfl | hv'
          · -- successors of the newly visited node are pushed unless visited
            rw [succ_iff_adjSpec] at hw
            obtain ⟨q, hq, htq⟩ := hw
            by_cases hwv : w.val ∈ visited'
            · exact Or.inl hwv
            · refine Or.inr ((hstkmem w).2 (Or.inr ⟨q, hq, htq, ?_⟩))
              rw [htq]
              exact hwv
          · rcases hclo v hv' w hw with h | h
            · exact Or.inl (Finset.mem_insert_of_mem h)
            · rcases List.mem_cons.1 h with rfl | h'
              · exact Or.inl (Finset.mem_insert_self _ _)
              · exact Or.inr ((hstkmem w).2 (Or.inl h'))
        have hfuel'' : g.nodes.length ≤ fuel + visited'.card := by
          rw [hvisdef, Finset.card_insert_of_not_mem hx]
          omega
        obtain ⟨L', hrun', hnd', hfresh', hprop', hcov', hcloL'⟩ :=
          ihf stack' visited' hstk'' hvis'' hclo'' hfuel''
        refine ⟨(x, (g.nodes[x.val]).data) :: L', ?_, ?_, ?_, ?_, ?_, ?_⟩
        · rw [dftRun_yield g fuel (x :: rest) visited x (g.nodes[x.val]).data
            stack' visited' hnext, hrun']
          rfl
        · simp only [List.map_cons, List.nodup_cons]
          refine ⟨?_, hnd'⟩
          intro hcon
          obtain ⟨p, hp, hpv⟩ := List.mem_map.1 hcon
          exact hfresh' p hp (by rw [hpv]; exact Finset.mem_insert_self _ _)
        · intro p hp
          rcases List.mem_cons.1 hp with rfl | hp'
          · exact hx
          · intro hcon
            exact hfresh' p hp' (Finset.mem_insert_of_mem hcon)
        · intro p hp
          rcases List.mem_cons.1 hp with rfl | hp'
          · exact ⟨hxlt, hxreach, hdata⟩
          · exact hprop' p hp'
        · intro y hy
          rcases List.mem_cons.1 hy with rfl | hy'
          · exact Or.inr ⟨(y, (g.nodes[y.val]).data), by simp, rfl⟩
          · have hyin : y ∈ stack' ∨ y.val ∈ visited' := by
              by_cases hyv : y.val ∈ visited'
              · exact Or.inr hyv
              · exact Or.inl ((hstkmem y).2 (Or.inl hy'))
            rcases hyin with hys | hyv
            · rcases hcov' y hys with h | ⟨p, hp, hpy⟩
              · rcases Finset.mem_insert.1 h with heq | h'
                · exact Or.inr ⟨(x, (g.nodes[x.val]).data), by simp,
                    (nodeIndex_ext x y heq.symm)⟩
                · exact Or.inl h'
              · exact Or.inr ⟨p, by simp [hp], hpy⟩
            · rcases Finset.mem_insert.1 hyv with heq | h'
              · exact Or.inr ⟨(x, (g.nodes[x.val]).data), by simp,
                  (nodeIndex_ext x y heq.symm)⟩
              · exact Or.inl h'
        · intro v hv w hw
          have hv' : v ∈ visited' ∨ ∃ p ∈ L', p.1.val = v := by
            rcases hv with hv | ⟨p, hp, hpv⟩
            · exact Or.inl (Finset.mem_insert_of_mem hv)
            · rcases List.mem_cons.1 hp with rfl | hp'
              · exact Or.inl (by rw [← hpv]; exact Finset.mem_insert_self _ _)
              · exact Or.inr ⟨p, hp', hpv⟩
          rcases hcloL' v hv' w hw with h | ⟨p, hp, hpw⟩
          · rcases Finset.mem_insert.1 h with heq | h'
            · exact Or.inr ⟨(x, (g.nodes[x.val]).data), by simp, heq.symm⟩
            · exact Or.inl h'
          · exact Or.inr ⟨p, by simp [hp], hpw⟩

/-- C3: for every API-built graph and every in-range start node, exhausting
`depth_traverse(start)` terminates (no panic, no infinite yield even in
cyclic graphs) and yields each node reachable from `start` via outgoing
edges exactly once — and no other node — together with that node's
payload. -/
theorem depth_traverse_reachability (g : Graph N E) (hb : Built g) (start : NodeIndex)
    (hstart : start.val < g.nodes.length) :
    ∃ L : List (NodeIndex × N), depth_traverse g start = some L ∧
      (L.map (fun p => p.1.val)).Nodup ∧
      (∀ p ∈ L, node_data g p.1 = some p.2) ∧
      ∀ j : NodeIndex, (∃ p ∈ L, p.1 = j) ↔ Reach g start j := by
  have hI := built_inv hb
  obtain ⟨L, hrun, hnd, hfresh, hprop, hcov, hclo⟩ :=
    dftRun_spec g hI start (g.nodes.length + 1) [start] ∅
      (by
        intro x hx
        rcases List.mem_cons.1 hx with rfl | hx'
        · exact ⟨hstart, Relation.ReflTransGen.refl⟩
        · simp at hx')
      (by simp)
      (by simp)
      (by simp)
  refine ⟨L, hrun, hnd, fun p hp => (hprop p hp).2.2, ?_⟩
  intro j
  constructor
  · rintro ⟨p, hp, rfl⟩
    exact (hprop p hp).2.1
  · intro hreach
    induction hreach with
    | refl =>
      rcases hcov start (by simp) with h | h
      · simp at h
      · exact h
    | tail hab hbc ihj =>
      obtain ⟨p, hp, hpb⟩ := ihj
      have hb' := hclo p.1.val (Or.inr ⟨p, hp, rfl⟩) _ (by rw [hpb]; exact hbc)
      rcases hb' with h | ⟨q, hq, hqw⟩
      · simp at h
      · exact ⟨q, hq, nodeIndex_ext q.1 _ hqw⟩

theorem depth_traverse_reachability_witness :
    Built refGraph ∧ (1 : Nat) < refGraph.nodes.length ∧
    (∃ L : List (NodeIndex × String), depth_traverse refGraph ⟨1⟩ = some L ∧
      (L.map (fun p => p.1.val)).Nodup ∧
      (∀ p ∈ L, node_data refGraph p.1 = some p.2) ∧
      ∀ j : NodeIndex, (∃ p ∈ L, p.1 = j) ↔ Reach refGraph ⟨1⟩ j) :=
  ⟨built_refGraph, by decide,
    depth_traverse_reachability refGraph built_refGraph ⟨1⟩ (by decide)⟩

end EnaGraph
